import Mathlib

/-!
# Verification of the GBA-centrality propagation engine

Shallow embedding of the scoring pipeline of the GBA-centrality repository:

* `get_adjacency_matrices` and `calculate_scores`
  (scripts/GBA_centrality_PR.py),
* `leave_one_out` (scripts/leave_one_out.py),
* `parse_interactome` (both the edge-list variant of data_parser.py and the
  networkx variant of src/data_parser.py),
* `parse_causal_genes` (the indexed-vector variant of data_parser.py).

Machine floats are modelled by exact rationals (all values arising in the
claims are dyadic and exactly representable); the uint64 accumulation of
matrix powers is modelled by natural numbers reduced modulo 2 ^ 64, exactly
as numpy's uint64 matrix product wraps around.
-/

namespace GBA

/-! ## Diffusion Matrix Builder (scripts/GBA_centrality_PR.py) -/

/-- numpy uint64 matrix product: every entry of `X @ Y` is the (wrapped)
sum of products, i.e. the exact natural-number entry reduced mod 2 ^ 64. -/
def matMulU64 {n : ℕ} (X Y : Matrix (Fin n) (Fin n) ℕ) :
    Matrix (Fin n) (Fin n) ℕ :=
  Matrix.of fun i j => (∑ k, X i k * Y k j) % 2 ^ 64

/-- Models `numpy.fill_diagonal(res, val=0)`. -/
def zeroDiag {n : ℕ} {α : Type} [Zero α] (M : Matrix (Fin n) (Fin n) α) :
    Matrix (Fin n) (Fin n) α :=
  Matrix.of fun i j => if i = j then 0 else M i j

/-- Models `res.astype(numpy.float32)`: cast of the integer matrix to the float
(here: rational) matrix. -/
def toQ {n : ℕ} (M : Matrix (Fin n) (Fin n) ℕ) : Matrix (Fin n) (Fin n) ℚ :=
  Matrix.of fun i j => (M i j : ℚ)

/-- Row-wise normalization of `get_adjacency_matrices`: compute the row sums,
replace zero row sums by 1, then divide each row entrywise by its
(replaced) row sum. -/
def rowNormalize {n : ℕ} (M : Matrix (Fin n) (Fin n) ℚ) :
    Matrix (Fin n) (Fin n) ℚ :=
  Matrix.of fun i j => M i j / (if (∑ k, M i k) = 0 then 1 else ∑ k, M i k)

/-- One iteration of the power loop acting on the accumulator `res`:
`res = res @ A` followed by `numpy.fill_diagonal(res, val=0)`. -/
def gamStep {n : ℕ} (A res : Matrix (Fin n) (Fin n) ℕ) :
    Matrix (Fin n) (Fin n) ℕ :=
  zeroDiag (matMulU64 res A)

/-- The remaining iterations of the `for power in range(1, d_max + 1)` loop of
`get_adjacency_matrices`, given the current accumulator `res`; each iteration
appends the row-normalized float cast of the updated accumulator. -/
def gamAux {n : ℕ} (A : Matrix (Fin n) (Fin n) ℕ) :
    ℕ → Matrix (Fin n) (Fin n) ℕ → List (Matrix (Fin n) (Fin n) ℚ)
  | 0, _ => []
  | k + 1, res =>
      let res2 := gamStep A res
      rowNormalize (toQ res2) :: gamAux A k res2

/-- Models `get_adjacency_matrices(interactome, d_max)` of
scripts/GBA_centrality_PR.py, taking the network's (uint64) adjacency matrix
`A` in node-enumeration order: the list `[M_0, …, M_d_max]`, where `M_0` is
the float cast of the uint64 identity and the later entries are produced by
the power loop. -/
def get_adjacency_matrices {n : ℕ} (A : Matrix (Fin n) (Fin n) ℕ)
    (d_max : ℕ) : List (Matrix (Fin n) (Fin n) ℚ) :=
  toQ 1 :: gamAux A d_max 1

/-- The accumulator after `d` iterations of the power loop: `leakyPower A d`
is the value of `res` right after iteration `d` (so the matrix whose
normalization is appended as `M_d`).  The diagonal zeroing of iteration
`d - 1` feeds into iteration `d` — this is what the code does. -/
def leakyPower {n : ℕ} (A : Matrix (Fin n) (Fin n) ℕ) :
    ℕ → Matrix (Fin n) (Fin n) ℕ
  | 0 => 1
  | d + 1 => gamStep A (leakyPower A d)

/-- Raw `d`-th matrix power in uint64 arithmetic, with no diagonal zeroing
between the multiplications.  This is the quantity the claim about
`get_adjacency_matrices` refers to ("the raw d-th power A^d"); it is *not*
what the code computes for `d ≥ 3`. -/
def rawPowerU64 {n : ℕ} (A : Matrix (Fin n) (Fin n) ℕ) :
    ℕ → Matrix (Fin n) (Fin n) ℕ
  | 0 => 1
  | d + 1 => matMulU64 (rawPowerU64 A d) A

lemma gamAux_getD {n : ℕ} (A : Matrix (Fin n) (Fin n) ℕ) :
    ∀ (k m d : ℕ), d < k →
      (gamAux A k (leakyPower A m)).getD d 0 =
        rowNormalize (toQ (leakyPower A (m + d + 1))) := by
  intro k
  induction k with
  | zero => intro m d hd; omega
  | succ k ih =>
    intro m d hd
    have hstep : gamStep A (leakyPower A m) = leakyPower A (m + 1) := rfl
    cases d with
    | zero =>
      simp [gamAux, hstep]
    | succ d =>
      have : (gamAux A (k + 1) (leakyPower A m)).getD (d + 1) 0 =
          (gamAux A k (leakyPower A (m + 1))).getD d 0 := by
        simp [gamAux, hstep]
      rw [this, ih (m + 1) d (by omega)]
      have harith : m + 1 + d + 1 = m + (d + 1) + 1 := by omega
      rw [harith]

/-- Position `d` (for `1 ≤ d ≤ d_max`) of the returned list is the
row-normalized float cast of the leaky power accumulator. -/
lemma get_adjacency_matrices_getD {n : ℕ} (A : Matrix (Fin n) (Fin n) ℕ)
    (d_max d : ℕ) (h1 : 1 ≤ d) (h2 : d ≤ d_max) :
    (get_adjacency_matrices A d_max).getD d 0 =
      rowNormalize (toQ (leakyPower A d)) := by
  obtain ⟨e, rfl⟩ : ∃ e, d = e + 1 := ⟨d - 1, by omega⟩
  have h0 : (1 : Matrix (Fin n) (Fin n) ℕ) = leakyPower A 0 := rfl
  have : (get_adjacency_matrices A d_max).getD (e + 1) 0 =
      (gamAux A d_max (leakyPower A 0)).getD e 0 := by
    simp [get_adjacency_matrices, h0]
  rw [this, gamAux_getD A d_max 0 e (by omega)]
  have harith : 0 + e + 1 = e + 1 := by omega
  rw [harith]

lemma leakyPower_diag {n : ℕ} (A : Matrix (Fin n) (Fin n) ℕ) (d : ℕ)
    (hd : 1 ≤ d) (i : Fin n) : leakyPower A d i i = 0 := by
  obtain ⟨e, rfl⟩ : ∃ e, d = e + 1 := ⟨d - 1, by omega⟩
  simp [leakyPower, gamStep, zeroDiag]

lemma rowNormalize_apply {n : ℕ} (M : Matrix (Fin n) (Fin n) ℚ) (i j : Fin n) :
    rowNormalize M i j =
      M i j / (if (∑ k, M i k) = 0 then 1 else ∑ k, M i k) := rfl

/-- Every row of a row-normalized entrywise-nonnegative matrix is all-zero or
sums to 1. -/
lemma rowNormalize_row_sum {n : ℕ} (M : Matrix (Fin n) (Fin n) ℚ)
    (hM : ∀ i j, 0 ≤ M i j) (i : Fin n) :
    (∀ j, rowNormalize M i j = 0) ∨ (∑ j, rowNormalize M i j) = 1 := by
  by_cases hs : (∑ k, M i k) = 0
  · left
    intro j
    have hj : M i j = 0 := by
      have := (Finset.sum_eq_zero_iff_of_nonneg
        (fun k _ => hM i k)).mp hs j (Finset.mem_univ j)
      exact this
    simp [rowNormalize_apply, hj]
  · right
    have : (∑ j, rowNormalize M i j) = (∑ j, M i j) / (∑ k, M i k) := by
      simp only [rowNormalize_apply, if_neg hs]
      rw [Finset.sum_div]
    rw [this, div_self hs]

/-- One iteration of the `for n in interactome.nodes()` loop result:
the causal-gene indicator vector of `calculate_scores`
(scripts/GBA_centrality_PR.py): entry `i` is 1 when the `i`-th node of the
enumeration is a key of the causal-genes dict, else 0. -/
def causalGenesVec (nodes : List String) (causal_genes : List (String × ℚ)) :
    Fin nodes.length → ℚ :=
  fun i => if causal_genes.any (fun p => p.1 == nodes.get i) then 1 else 0

/-- The accumulation loop of `calculate_scores`:
`scores_vec += alpha ** d * A.dot(causal_genes_vec)` over the enumerated
list of adjacency matrices. -/
def scoresVec {n : ℕ} (adjacency_matrices : List (Matrix (Fin n) (Fin n) ℚ))
    (c : Fin n → ℚ) (alpha : ℚ) : Fin n → ℚ :=
  adjacency_matrices.enum.foldl
    (fun acc p => acc + alpha ^ p.1 • p.2.mulVec c) 0

/-- Models `calculate_scores(interactome, adjacency_matrices, causal_genes, alpha)`
of scripts/GBA_centrality_PR.py.  The returned dict
`dict(zip(interactome.nodes(), scores_vec))` is modelled as the association
list pairing each node (in enumeration order) with its score. -/
def calculate_scores (nodes : List String)
    (adjacency_matrices : List (Matrix (Fin nodes.length) (Fin nodes.length) ℚ))
    (causal_genes : List (String × ℚ)) (alpha : ℚ) : List (String × ℚ) :=
  List.ofFn fun i =>
    (nodes.get i,
      scoresVec adjacency_matrices (causalGenesVec nodes causal_genes) alpha i)

lemma scoresVec_enumFrom {n : ℕ} (alpha : ℚ) (c : Fin n → ℚ) :
    ∀ (mats : List (Matrix (Fin n) (Fin n) ℚ)) (m : ℕ) (acc : Fin n → ℚ),
      (mats.enumFrom m).foldl (fun acc p => acc + alpha ^ p.1 • p.2.mulVec c)
          acc =
        acc + ∑ d ∈ Finset.range mats.length,
          alpha ^ (m + d) • (mats.getD d 0).mulVec c := by
  intro mats
  induction mats with
  | nil => intro m acc; simp
  | cons A t ih =>
    intro m acc
    have hen : (A :: t).enumFrom m = (m, A) :: t.enumFrom (m + 1) := rfl
    rw [hen, List.foldl_cons, ih (m + 1), List.length_cons,
      Finset.sum_range_succ']
    simp only [List.getD_cons_succ, List.getD_cons_zero]
    rw [add_zero, add_assoc]
    congr 1
    · rw [add_comm]
      congr 1
      refine Finset.sum_congr rfl ?_
      intro d _
      have : m + 1 + d = m + (d + 1) := by omega
      rw [this]

lemma scoresVec_eq_sum {n : ℕ} (mats : List (Matrix (Fin n) (Fin n) ℚ))
    (c : Fin n → ℚ) (alpha : ℚ) :
    scoresVec mats c alpha =
      ∑ d ∈ Finset.range mats.length, alpha ^ d • (mats.getD d 0).mulVec c := by
  have h := scoresVec_enumFrom alpha c mats 0 0
  rw [scoresVec, List.enum]
  rw [h, zero_add]
  refine Finset.sum_congr rfl ?_
  intro d _
  rw [Nat.zero_add]

lemma matMulU64_one_left {n : ℕ} (A : Matrix (Fin n) (Fin n) ℕ) :
    matMulU64 1 A = Matrix.of fun i j => A i j % 2 ^ 64 := by
  ext i j
  simp only [matMulU64, Matrix.of_apply, Matrix.one_apply, ite_mul, one_mul,
    zero_mul]
  rw [Finset.sum_ite_eq]
  simp

lemma zeroDiag_of_diag_zero {n : ℕ} (M : Matrix (Fin n) (Fin n) ℕ)
    (hM : ∀ i, M i i = 0) : zeroDiag M = M := by
  ext i j
  simp only [zeroDiag, Matrix.of_apply]
  by_cases h : i = j
  · subst h; rw [if_pos rfl, hM]
  · rw [if_neg h]

/-- The adjacency matrix (in node-enumeration order A, B, C) of the
undirected, unweighted network with edges A-B and B-C. -/
def pathA : Matrix (Fin 3) (Fin 3) ℕ := !![0,1,0;1,0,1;0,1,0]

/-- Node enumeration of that network, in networkx first-seen order. -/
def exampleNodes : List String := ["A", "B", "C"]

/-- The pipeline value of the spec's worked example: `get_adjacency_matrices`
with `d_max = 2` on the A-B, B-C network followed by `calculate_scores` with
seed set `{A}` and `alpha = 1/2`. -/
def exampleScores : List (String × ℚ) :=
  calculate_scores exampleNodes (get_adjacency_matrices pathA 2)
    [("A", 1)] (1 / 2)

/-- C1: the pipeline on the A-B, B-C network with seeds `{A}`, `alpha = 1/2`,
`d_max = 2` gives node B the score 1/4, not the claimed 1/2: row
normalization divides B's one-hop row (degree 2) by 2 before the `alpha¹`
attenuation is applied. -/
theorem claim_C1_counterexample :
    exampleScores.lookup "B" = some (1 / 4) ∧
      exampleScores.lookup "B" ≠ some (1 / 2) := by
  with_unfolding_all decide

/-- C1 (amended): the pipeline of `get_adjacency_matrices` followed by
`calculate_scores` on the undirected, unweighted network with edges A-B and
B-C, seed set `{A}`, `alpha = 1/2` and `d_max = 2` produces exactly
`score(A) = 1`, `score(B) = 1/4` and `score(C) = 1/4`. -/
theorem claim_C1_amended :
    exampleScores = [("A", 1), ("B", 1 / 4), ("C", 1 / 4)] := by
  with_unfolding_all decide

/-- C2: for the path network A-B-C and `d = 3`, the matrix `M_3` returned by
`get_adjacency_matrices` differs from the row-normalized, diagonal-zeroed raw
third power: the diagonal zeroing applied at `d = 2` leaks into the third
power (the code multiplies the diagonal-zeroed accumulator, not the raw
power, by `A`). -/
theorem claim_C2_counterexample :
    (get_adjacency_matrices pathA 3).getD 3 0 ≠
      rowNormalize (toQ (zeroDiag (rawPowerU64 pathA 3))) := by
  with_unfolding_all decide

/-- C2 (amended): for a network adjacency matrix with zero diagonal, the
matrix `M_d` returned by `get_adjacency_matrices` equals the raw `d`-th power
with zeroed diagonal and row normalization only for `d ≤ 2`; from `d = 3` on
the diagonal zeroing applied at earlier powers leaks into later powers
(see the counterexample). -/
theorem claim_C2_amended {n : ℕ} (A : Matrix (Fin n) (Fin n) ℕ)
    (hA : ∀ i, A i i = 0) (d_max d : ℕ) (h1 : 1 ≤ d) (h2 : d ≤ 2)
    (h3 : d ≤ d_max) :
    (get_adjacency_matrices A d_max).getD d 0 =
      rowNormalize (toQ (zeroDiag (rawPowerU64 A d))) := by
  rw [get_adjacency_matrices_getD A d_max d h1 h3]
  interval_cases d
  · rfl
  · have hfix : zeroDiag (matMulU64 1 A) = matMulU64 1 A := by
      refine zeroDiag_of_diag_zero _ ?_
      intro i
      rw [matMulU64_one_left]
      simp [hA i]
    show rowNormalize (toQ (zeroDiag (matMulU64 (zeroDiag (matMulU64 1 A)) A)))
      = rowNormalize (toQ (zeroDiag (matMulU64 (matMulU64 1 A) A)))
    rw [hfix]

theorem claim_C2_witness :
    (∀ i, pathA i i = 0) ∧
      (get_adjacency_matrices pathA 3).getD 2 0 =
        rowNormalize (toQ (zeroDiag (rawPowerU64 pathA 2))) :=
  ⟨by decide,
    claim_C2_amended pathA (by decide) 3 2 (by norm_num) (by norm_num)
      (by norm_num)⟩

/-- C4: for every network adjacency matrix and every `1 ≤ d ≤ d_max`, the
matrix `M_d` returned by `get_adjacency_matrices` has zero diagonal and every
row either all-zero or summing (exactly, in the rational model) to 1; a row
whose pre-normalization sum is 0 is left all-zero. -/
theorem claim_C4 {n : ℕ} (A : Matrix (Fin n) (Fin n) ℕ) (d_max d : ℕ)
    (h1 : 1 ≤ d) (h2 : d ≤ d_max) :
    (∀ i, (get_adjacency_matrices A d_max).getD d 0 i i = 0) ∧
      (∀ i, (∀ j, (get_adjacency_matrices A d_max).getD d 0 i j = 0) ∨
        (∑ j, (get_adjacency_matrices A d_max).getD d 0 i j) = 1) := by
  rw [get_adjacency_matrices_getD A d_max d h1 h2]
  constructor
  · intro i
    rw [rowNormalize_apply]
    have : toQ (leakyPower A d) i i = 0 := by
      simp [toQ, leakyPower_diag A d h1 i]
    rw [this, zero_div]
  · intro i
    refine rowNormalize_row_sum (toQ (leakyPower A d)) ?_ i
    intro i j
    simp [toQ]

theorem claim_C4_witness :
    (∀ i, (get_adjacency_matrices pathA 3).getD 2 0 i i = 0) ∧
      (∀ i, (∀ j, (get_adjacency_matrices pathA 3).getD 2 0 i j = 0) ∨
        (∑ j, (get_adjacency_matrices pathA 3).getD 2 0 i j) = 1) :=
  claim_C4 pathA 3 2 (by norm_num) (by norm_num)

/-- C3: `calculate_scores` returns one entry per node, keyed in the network's
node-enumeration order, whose value is
`Σ_{d=0}^{d_max} alpha^d · (M_d · seed_vector)` evaluated at that node. -/
theorem claim_C3 (nodes : List String)
    (mats : List (Matrix (Fin nodes.length) (Fin nodes.length) ℚ))
    (causal_genes : List (String × ℚ)) (alpha : ℚ) :
    (calculate_scores nodes mats causal_genes alpha).map Prod.fst = nodes ∧
      ∀ i : Fin nodes.length,
        (calculate_scores nodes mats causal_genes alpha).getD i ("", 0) =
          (nodes.get i,
            (∑ d ∈ Finset.range mats.length,
              alpha ^ d •
                (mats.getD d 0).mulVec (causalGenesVec nodes causal_genes))
              i) := by
  constructor
  · simp only [calculate_scores, List.map_ofFn]
    exact List.ofFn_get nodes
  · intro i
    have hlen : (calculate_scores nodes mats causal_genes alpha).length =
        nodes.length := by
      simp only [calculate_scores, List.length_ofFn]
    have hget : (calculate_scores nodes mats causal_genes alpha).getD i ("", 0)
        = (nodes.get i,
            scoresVec mats (causalGenesVec nodes causal_genes) alpha i) := by
      rw [List.getD_eq_getElem _ _ (by rw [hlen]; exact i.isLt)]
      simp only [calculate_scores, List.getElem_ofFn]
    rw [hget, scoresVec_eq_sum]

/-- The arguments of one `calculate_scores` invocation, bundled so that the
call can be given a state-passing semantics. -/
structure ScoringInputs where
  nodes : List String
  adjacency_matrices : List (Matrix (Fin nodes.length) (Fin nodes.length) ℚ)
  causal_genes : List (String × ℚ)
  alpha : ℚ

/-- State-passing rendering of a `calculate_scores` call: it returns the
score dict together with the post-call state of the argument objects.  Every
statement of the source only reads the arguments (the two arrays it writes,
`causal_genes_vec` and `scores_vec`, are freshly allocated locals), so the
post-call state is the pre-call state. -/
def calculate_scoresST (inp : ScoringInputs) :
    List (String × ℚ) × ScoringInputs :=
  (calculate_scores inp.nodes inp.adjacency_matrices inp.causal_genes
    inp.alpha, inp)

/-- C9: `calculate_scores` is pure: a second invocation on the state left
behind by a first invocation with identical arguments returns an identical
score dict, and the arguments after both calls are the original ones. -/
theorem claim_C9 (inp : ScoringInputs) :
    (calculate_scoresST (calculate_scoresST inp).2).1 =
        (calculate_scoresST inp).1 ∧
      (calculate_scoresST (calculate_scoresST inp).2).2 = inp :=
  ⟨rfl, rfl⟩

/-! ## Leave-One-Out Evaluator (scripts/leave_one_out.py) -/

/-- Models `scores[item]`: dict lookup of a node's score (the evaluator only looks
up keys of the dict, so the default is never reached on its domain). -/
def scoreKey (scores : List (String × ℚ)) (u : String) : ℚ :=
  (scores.lookup u).getD 0

/-- Models `sorted(scores.keys(), key=lambda item: scores[item], reverse=True)`:
the stable descending sort of the score dict's keys by score.  Python's sort
is stable and `reverse=True` preserves the relative order of ties, so it
coincides with insertion sort under the total preorder
"has greater-or-equal score". -/
def rankedGenes (scores : List (String × ℚ)) : List String :=
  List.insertionSort (fun u v => scoreKey scores v ≤ scoreKey scores u)
    (scores.map Prod.fst)

/-- The loop of `leave_one_out`, with the mutable `causal_genes` dict passed
as explicit state.  Per iteration: `del causal_genes[left_out]` (removal of
the unique entry with that key), one scoring call, the 1-based position of
the left-out gene in the descending score order, then
`causal_genes[left_out] = 1` which re-adds the key at the end of the dict.
`none` models the `ValueError` that `list.index` raises when the left-out
gene is not among the scored nodes. -/
def looAux (nodes : List String)
    (mats : List (Matrix (Fin nodes.length) (Fin nodes.length) ℚ))
    (alpha : ℚ) :
    List String → List (String × ℚ) →
      Option (List (String × ℕ) × List (String × ℚ))
  | [], causal_genes => some ([], causal_genes)
  | left_out :: rest, causal_genes =>
    match (rankedGenes (calculate_scores nodes mats
        (causal_genes.eraseP (fun p => p.1 == left_out)) alpha)).findIdx?
        (fun u => u == left_out) with
    | none => none
    | some k =>
      match looAux nodes mats alpha rest
          (causal_genes.eraseP (fun p => p.1 == left_out) ++
            [(left_out, 1)]) with
      | none => none
      | some (ranks, final) => some ((left_out, k + 1) :: ranks, final)

/-- Models `leave_one_out(interactome, adjacency_matrices, causal_genes, alpha)` of
scripts/leave_one_out.py; the loop iterates over the snapshot
`list(causal_genes.keys())` while mutating the dict. -/
def leave_one_out (nodes : List String)
    (mats : List (Matrix (Fin nodes.length) (Fin nodes.length) ℚ))
    (causal_genes : List (String × ℚ)) (alpha : ℚ) :
    Option (List (String × ℕ) × List (String × ℚ)) :=
  looAux nodes mats alpha (causal_genes.map Prod.fst) causal_genes

/-- The seed dict equal to `causal_genes` minus only the seed `s`. -/
def seedsMinus (causal_genes : List (String × ℚ)) (s : String) :
    List (String × ℚ) :=
  causal_genes.filter (fun p => !(p.1 == s))

/-- The rank the evaluator's loop body assigns to the held-out seed `s` when
the scoring call receives the original seed set minus only `s`. -/
def rankOf (nodes : List String)
    (mats : List (Matrix (Fin nodes.length) (Fin nodes.length) ℚ))
    (alpha : ℚ) (causal_genes : List (String × ℚ)) (s : String) : Option ℕ :=
  ((rankedGenes (calculate_scores nodes mats (seedsMinus causal_genes s)
      alpha)).findIdx? (fun u => u == s)).map (fun k => k + 1)

lemma calculate_scores_map_fst (nodes : List String)
    (mats : List (Matrix (Fin nodes.length) (Fin nodes.length) ℚ))
    (causal_genes : List (String × ℚ)) (alpha : ℚ) :
    (calculate_scores nodes mats causal_genes alpha).map Prod.fst = nodes := by
  simp only [calculate_scores, List.map_ofFn]
  exact List.ofFn_get nodes

lemma any_key_iff (c : List (String × ℚ)) (x : String) :
    c.any (fun p => p.1 == x) = true ↔ x ∈ c.map Prod.fst := by
  rw [List.any_eq_true]
  constructor
  · rintro ⟨p, hp, hpe⟩
    exact List.mem_map.mpr ⟨p, hp, by simpa using hpe⟩
  · intro hx
    obtain ⟨p, hp, hpe⟩ := List.mem_map.mp hx
    exact ⟨p, hp, by simpa using hpe⟩

lemma causalGenesVec_congr (nodes : List String)
    (c1 c2 : List (String × ℚ))
    (h : ∀ x, x ∈ c1.map Prod.fst ↔ x ∈ c2.map Prod.fst) :
    causalGenesVec nodes c1 = causalGenesVec nodes c2 := by
  funext i
  have hb : (c1.any (fun p => p.1 == nodes.get i)) =
      (c2.any (fun p => p.1 == nodes.get i)) := by
    rw [Bool.eq_iff_iff, any_key_iff, any_key_iff]
    exact h (nodes.get i)
  simp only [causalGenesVec, hb]

lemma calculate_scores_congr (nodes : List String)
    (mats : List (Matrix (Fin nodes.length) (Fin nodes.length) ℚ))
    (c1 c2 : List (String × ℚ)) (alpha : ℚ)
    (h : ∀ x, x ∈ c1.map Prod.fst ↔ x ∈ c2.map Prod.fst) :
    calculate_scores nodes mats c1 alpha =
      calculate_scores nodes mats c2 alpha := by
  simp only [calculate_scores, causalGenesVec_congr nodes c1 c2 h]

lemma filter_mem_cons_of_not_mem (c : List (String × ℚ)) (s : String)
    (r : List String) (hs : s ∉ c.map Prod.fst) :
    c.filter (fun p => decide (p.1 ∈ s :: r)) =
      c.filter (fun p => decide (p.1 ∈ r)) := by
  induction c with
  | nil => rfl
  | cons p t ih =>
    have hps : p.1 ≠ s := by
      intro he
      exact hs (List.mem_map.mpr ⟨p, List.mem_cons_self p t, he⟩)
    have hts : s ∉ t.map Prod.fst := by
      intro hm
      exact hs (List.mem_cons_of_mem _ hm)
    have hcond : (p.1 ∈ s :: r) ↔ (p.1 ∈ r) := by
      constructor
      · intro hm
        rcases List.mem_cons.mp hm with he | hm2
        · exact absurd he hps
        · exact hm2
      · exact fun hm => List.mem_cons_of_mem _ hm
    by_cases hr : p.1 ∈ r
    · rw [List.filter_cons, List.filter_cons, if_pos (by simp [hr]),
        if_pos (by simpa using hr), ih hts]
    · rw [List.filter_cons, List.filter_cons, if_neg (by simp [hps, hr]),
        if_neg (by simpa using hr), ih hts]

lemma filter_cons_eraseP (c : List (String × ℚ)) (s : String)
    (r : List String) (hnd : (c.map Prod.fst).Nodup) (hs : s ∉ r) :
    (c.filter (fun p => decide (p.1 ∈ s :: r))).eraseP
        (fun p => p.1 == s) =
      c.filter (fun p => decide (p.1 ∈ r)) := by
  induction c with
  | nil => rfl
  | cons p t ih =>
    rw [List.map_cons, List.nodup_cons] at hnd
    obtain ⟨hph, htnd⟩ := hnd
    by_cases hp : p.1 = s
    · have hkeep : decide (p.1 ∈ s :: r) = true := by
        simp [hp]
      have hdrop : decide (p.1 ∈ r) = false := by
        simp [hp, hs]
      rw [List.filter_cons, if_pos hkeep,
        List.eraseP_cons_of_pos (by simp [hp]), List.filter_cons,
        if_neg (by simp [hdrop])]
      exact filter_mem_cons_of_not_mem t s r (hp ▸ hph)
    · by_cases hr : p.1 ∈ r
      · rw [List.filter_cons, if_pos (by simp [hr]),
          List.eraseP_cons_of_neg (by simp [hp]), List.filter_cons,
          if_pos (by simp [hr]), ih htnd]
      · have hnotin : p.1 ∉ s :: r := by
          intro hm
          rcases List.mem_cons.mp hm with he | hm2
          · exact hp he
          · exact hr hm2
        rw [List.filter_cons, if_neg (by simpa using hnotin),
          List.filter_cons, if_neg (by simpa using hr), ih htnd]

lemma keys_filter_append_map (c : List (String × ℚ)) (r done : List String)
    (x : String) :
    x ∈ (c.filter (fun p => decide (p.1 ∈ r)) ++
          done.map (fun s => (s, (1 : ℚ)))).map Prod.fst ↔
      ((x ∈ c.map Prod.fst ∧ x ∈ r) ∨ x ∈ done) := by
  rw [List.map_append, List.mem_append]
  constructor
  · rintro (hm | hm)
    · obtain ⟨p, hp, hpe⟩ := List.mem_map.mp hm
      obtain ⟨hpc, hpr⟩ := List.mem_filter.mp hp
      left
      refine ⟨List.mem_map.mpr ⟨p, hpc, hpe⟩, ?_⟩
      rw [← hpe]
      simpa using hpr
    · right
      obtain ⟨p, hp, hpe⟩ := List.mem_map.mp hm
      obtain ⟨s, hsd, hse⟩ := List.mem_map.mp hp
      rw [← hpe, ← hse]
      exact hsd
  · rintro (⟨hck, hr⟩ | hd)
    · obtain ⟨p, hp, hpe⟩ := List.mem_map.mp hck
      left
      refine List.mem_map.mpr ⟨p, List.mem_filter.mpr ⟨hp, ?_⟩, hpe⟩
      rw [hpe]
      simpa using hr
    · right
      refine List.mem_map.mpr ⟨(x, 1), List.mem_map.mpr ⟨x, hd, rfl⟩, rfl⟩

lemma keys_seedsMinus (c : List (String × ℚ)) (s x : String) :
    x ∈ (seedsMinus c s).map Prod.fst ↔ (x ∈ c.map Prod.fst ∧ x ≠ s) := by
  constructor
  · intro hm
    obtain ⟨p, hp, hpe⟩ := List.mem_map.mp hm
    obtain ⟨hpc, hpr⟩ := List.mem_filter.mp hp
    refine ⟨List.mem_map.mpr ⟨p, hpc, hpe⟩, ?_⟩
    rw [← hpe]
    simpa using hpr
  · rintro ⟨hck, hxs⟩
    obtain ⟨p, hp, hpe⟩ := List.mem_map.mp hck
    refine List.mem_map.mpr ⟨p, List.mem_filter.mpr ⟨hp, ?_⟩, hpe⟩
    rw [hpe]
    simpa using hxs

lemma mem_rankedGenes_iff (scores : List (String × ℚ)) (x : String) :
    x ∈ rankedGenes scores ↔ x ∈ scores.map Prod.fst := by
  exact (List.perm_insertionSort _ _).mem_iff

lemma length_rankedGenes (scores : List (String × ℚ)) :
    (rankedGenes scores).length = scores.length := by
  rw [rankedGenes, List.length_insertionSort, List.length_map]

lemma calculate_scores_length (nodes : List String)
    (mats : List (Matrix (Fin nodes.length) (Fin nodes.length) ℚ))
    (causal_genes : List (String × ℚ)) (alpha : ℚ) :
    (calculate_scores nodes mats causal_genes alpha).length = nodes.length := by
  simp only [calculate_scores, List.length_ofFn]

/-- Invariant of the `leave_one_out` loop: starting from the seed dict whose
entries are the not-yet-processed seeds (with their original values) followed
by the already-processed seeds re-added with value 1, the loop returns one
rank per remaining seed, each rank being the one computed from the original
seed set minus only that seed, and finishes with every seed mapped to 1. -/
lemma looAux_spec (nodes : List String)
    (mats : List (Matrix (Fin nodes.length) (Fin nodes.length) ℚ))
    (alpha : ℚ) (causal : List (String × ℚ))
    (hnd : (causal.map Prod.fst).Nodup) :
    ∀ (rest done : List String), rest.Nodup →
      (∀ t ∈ rest, t ∉ done) →
      (∀ x, x ∈ causal.map Prod.fst ↔ (x ∈ rest ∨ x ∈ done)) →
      (∀ t ∈ rest, t ∈ nodes) →
      ∃ ranks,
        looAux nodes mats alpha rest
            (causal.filter (fun p => decide (p.1 ∈ rest)) ++
              done.map (fun t => (t, (1 : ℚ)))) =
          some (ranks, (done ++ rest).map (fun t => (t, (1 : ℚ)))) ∧
        ranks.map Prod.fst = rest ∧
        (∀ t k, (t, k) ∈ ranks →
          1 ≤ k ∧ k ≤ nodes.length ∧
            rankOf nodes mats alpha causal t = some k) := by
  intro rest
  induction rest with
  | nil =>
    intro done _ _ _ _
    have hfe : causal.filter (fun p => decide (p.1 ∈ ([] : List String)))
        = [] := by simp
    refine ⟨[], ?_, rfl, ?_⟩
    · rw [hfe, List.nil_append, List.append_nil]
      rfl
    · intro t k h
      cases h
  | cons s rest2 ih =>
    intro done hndrest hdisj hiff hnodes
    have hsrest2 : s ∉ rest2 := (List.nodup_cons.mp hndrest).1
    have hndrest2 : rest2.Nodup := (List.nodup_cons.mp hndrest).2
    have hsck : s ∈ causal.map Prod.fst :=
      (hiff s).mpr (Or.inl (List.mem_cons_self s rest2))
    obtain ⟨q, hq, hqe⟩ := List.mem_map.mp hsck
    have hq_in_filter :
        q ∈ causal.filter (fun p => decide (p.1 ∈ s :: rest2)) := by
      refine List.mem_filter.mpr ⟨hq, ?_⟩
      simp [hqe]
    have herase :
        (causal.filter (fun p => decide (p.1 ∈ s :: rest2)) ++
            done.map (fun t => (t, (1 : ℚ)))).eraseP
          (fun p => p.1 == s) =
        causal.filter (fun p => decide (p.1 ∈ rest2)) ++
          done.map (fun t => (t, (1 : ℚ))) := by
      rw [List.eraseP_append_left (by simp [hqe]) _ hq_in_filter,
        filter_cons_eraseP causal s rest2 hnd hsrest2]
    have hkeys1 : ∀ x,
        x ∈ (causal.filter (fun p => decide (p.1 ∈ rest2)) ++
              done.map (fun t => (t, (1 : ℚ)))).map Prod.fst ↔
          x ∈ (seedsMinus causal s).map Prod.fst := by
      intro x
      rw [keys_filter_append_map, keys_seedsMinus]
      constructor
      · rintro (⟨hck, hr⟩ | hd)
        · exact ⟨hck, fun he => hsrest2 (he ▸ hr)⟩
        · have hck : x ∈ causal.map Prod.fst := (hiff x).mpr (Or.inr hd)
          refine ⟨hck, fun he => ?_⟩
          exact (hdisj s (List.mem_cons_self s rest2)) (he ▸ hd)
      · rintro ⟨hck, hxs⟩
        rcases (hiff x).mp hck with hrest | hd
        · rcases List.mem_cons.mp hrest with he | h2
          · exact absurd he hxs
          · exact Or.inl ⟨hck, h2⟩
        · exact Or.inr hd
    have hscores :
        calculate_scores nodes mats
            (causal.filter (fun p => decide (p.1 ∈ rest2)) ++
              done.map (fun t => (t, (1 : ℚ)))) alpha =
          calculate_scores nodes mats (seedsMinus causal s) alpha :=
      calculate_scores_congr nodes mats _ _ alpha hkeys1
    have hmem : s ∈
        rankedGenes (calculate_scores nodes mats (seedsMinus causal s)
          alpha) := by
      rw [mem_rankedGenes_iff, calculate_scores_map_fst]
      exact hnodes s (List.mem_cons_self s rest2)
    have hex : ∃ x ∈
        rankedGenes (calculate_scores nodes mats (seedsMinus causal s)
          alpha), ((x == s) = true) := ⟨s, hmem, by simp⟩
    have hfind :
        (rankedGenes (calculate_scores nodes mats (seedsMinus causal s)
            alpha)).findIdx? (fun u => u == s) =
          some ((rankedGenes (calculate_scores nodes mats
            (seedsMinus causal s) alpha)).findIdx (fun u => u == s)) :=
      List.findIdx?_eq_some_of_exists hex
    have hk0lt : (rankedGenes (calculate_scores nodes mats
        (seedsMinus causal s) alpha)).findIdx (fun u => u == s) <
          nodes.length := by
      have h := List.findIdx_lt_length_of_exists hex
      rwa [length_rankedGenes, calculate_scores_length] at h
    have hdisj2 : ∀ t ∈ rest2, t ∉ done ++ [s] := by
      intro t ht hmem2
      rcases List.mem_append.mp hmem2 with hd | hsin
      · exact hdisj t (List.mem_cons_of_mem s ht) hd
      · rw [List.mem_singleton] at hsin
        exact hsrest2 (hsin ▸ ht)
    have hiff2 : ∀ x, x ∈ causal.map Prod.fst ↔
        (x ∈ rest2 ∨ x ∈ done ++ [s]) := by
      intro x
      rw [hiff x, List.mem_cons, List.mem_append, List.mem_singleton]
      tauto
    have hnodes2 : ∀ t ∈ rest2, t ∈ nodes := fun t ht =>
      hnodes t (List.mem_cons_of_mem s ht)
    obtain ⟨ranks2, hrun2, hmap2, hprop2⟩ :=
      ih (done ++ [s]) hndrest2 hdisj2 hiff2 hnodes2
    have hstate :
        (causal.filter (fun p => decide (p.1 ∈ rest2)) ++
            done.map (fun t => (t, (1 : ℚ)))) ++ [(s, (1 : ℚ))] =
          causal.filter (fun p => decide (p.1 ∈ rest2)) ++
            (done ++ [s]).map (fun t => (t, (1 : ℚ))) := by
      rw [List.map_append, List.append_assoc]
      rfl
    refine ⟨(s, (rankedGenes (calculate_scores nodes mats
      (seedsMinus causal s) alpha)).findIdx (fun u => u == s) + 1) ::
        ranks2, ?_, ?_, ?_⟩
    · simp only [looAux, herase, hscores, hfind, hstate, hrun2]
      have hfin : (done ++ [s]) ++ rest2 = done ++ s :: rest2 := by
        rw [List.append_assoc, List.singleton_append]
      rw [hfin]
    · simp only [List.map_cons, hmap2]
    · intro t k hmem2
      rcases List.mem_cons.mp hmem2 with hhead | htail
      · have ht : t = s := congrArg Prod.fst hhead
        have hk : k = (rankedGenes (calculate_scores nodes mats
            (seedsMinus causal s) alpha)).findIdx (fun u => u == s) + 1 :=
          congrArg Prod.snd hhead
        subst ht
        subst hk
        refine ⟨by omega, by omega, ?_⟩
        simp only [rankOf, hfind]
        rfl
      · exact hprop2 t k htail

/-- C6: for every network whose seed keys are all nodes (and pairwise
distinct, as dict keys are), `leave_one_out` succeeds (never the
`ValueError` of a missing key) and returns one rank per seed, each in
`[1, n]`; and in every ranking the loop produces, two nodes with equal
scores are ordered by the network's node enumeration (the sort is stable on
the key list, which is in enumeration order). -/
theorem claim_C6 (nodes : List String)
    (mats : List (Matrix (Fin nodes.length) (Fin nodes.length) ℚ))
    (causal_genes : List (String × ℚ)) (alpha : ℚ)
    (hnd : (causal_genes.map Prod.fst).Nodup)
    (hseeds : ∀ s ∈ causal_genes.map Prod.fst, s ∈ nodes) :
    (∃ ranks final, leave_one_out nodes mats causal_genes alpha =
        some (ranks, final) ∧
      ranks.map Prod.fst = causal_genes.map Prod.fst ∧
      ∀ p ∈ ranks, 1 ≤ p.2 ∧ p.2 ≤ nodes.length) ∧
    (∀ (cg : List (String × ℚ)) (u v : String),
      [u, v].Sublist nodes →
      scoreKey (calculate_scores nodes mats cg alpha) u =
        scoreKey (calculate_scores nodes mats cg alpha) v →
      [u, v].Sublist (rankedGenes (calculate_scores nodes mats cg alpha))) := by
  constructor
  · have hfe : causal_genes.filter
        (fun p => decide (p.1 ∈ causal_genes.map Prod.fst)) =
          causal_genes := by
      refine List.filter_eq_self.mpr ?_
      intro p hp
      have hm : p.1 ∈ causal_genes.map Prod.fst := List.mem_map.mpr ⟨p, hp, rfl⟩
      simpa using hm
    have hspec := looAux_spec nodes mats alpha causal_genes hnd
      (causal_genes.map Prod.fst) [] hnd (by simp) (by intro x; simp) hseeds
    rw [hfe] at hspec
    simp only [List.map_nil, List.append_nil, List.nil_append] at hspec
    obtain ⟨ranks, hrun, hmapf, hprop⟩ := hspec
    refine ⟨ranks, (causal_genes.map Prod.fst).map (fun t => (t, (1 : ℚ))),
      hrun, hmapf, ?_⟩
    intro p hp
    have h := hprop p.1 p.2 (by simpa using hp)
    exact ⟨h.1, h.2.1⟩
  · intro cg u v huv heq
    simp only [rankedGenes]
    refine List.pair_sublist_insertionSort (le_of_eq heq.symm) ?_
    rw [calculate_scores_map_fst]
    exact huv

theorem claim_C6_witness :
    ((([("A", (1 : ℚ))]).map Prod.fst).Nodup ∧
      (∀ s ∈ ([("A", (1 : ℚ))]).map Prod.fst, s ∈ exampleNodes)) ∧
    ((∃ ranks final,
        leave_one_out exampleNodes (get_adjacency_matrices pathA 2)
            [("A", (1 : ℚ))] (1 / 2) = some (ranks, final) ∧
        ranks.map Prod.fst = ([("A", (1 : ℚ))]).map Prod.fst ∧
        ∀ p ∈ ranks, 1 ≤ p.2 ∧ p.2 ≤ exampleNodes.length) ∧
      (∀ (cg : List (String × ℚ)) (u v : String),
        [u, v].Sublist exampleNodes →
        scoreKey (calculate_scores exampleNodes
            (get_adjacency_matrices pathA 2) cg (1 / 2)) u =
          scoreKey (calculate_scores exampleNodes
            (get_adjacency_matrices pathA 2) cg (1 / 2)) v →
        [u, v].Sublist (rankedGenes (calculate_scores exampleNodes
          (get_adjacency_matrices pathA 2) cg (1 / 2))))) :=
  ⟨⟨by decide, by decide⟩,
    claim_C6 exampleNodes (get_adjacency_matrices pathA 2) [("A", (1 : ℚ))]
      (1 / 2) (by decide) (by decide)⟩

/-- C7: `leave_one_out` removes exactly one seed at a time and restores it:
each returned rank is the one obtained by scoring with the original seed set
minus only the held-out seed, and the seed dict handed back to the caller
contains exactly the original seeds, each mapped to 1. -/
theorem claim_C7 (nodes : List String)
    (mats : List (Matrix (Fin nodes.length) (Fin nodes.length) ℚ))
    (causal_genes : List (String × ℚ)) (alpha : ℚ)
    (hnd : (causal_genes.map Prod.fst).Nodup)
    (hseeds : ∀ s ∈ causal_genes.map Prod.fst, s ∈ nodes) :
    ∃ ranks final, leave_one_out nodes mats causal_genes alpha =
        some (ranks, final) ∧
      (∀ s k, (s, k) ∈ ranks →
        rankOf nodes mats alpha causal_genes s = some k) ∧
      final = (causal_genes.map Prod.fst).map (fun s => (s, (1 : ℚ))) := by
  have hfe : causal_genes.filter
      (fun p => decide (p.1 ∈ causal_genes.map Prod.fst)) =
        causal_genes := by
    refine List.filter_eq_self.mpr ?_
    intro p hp
    have hm : p.1 ∈ causal_genes.map Prod.fst := List.mem_map.mpr ⟨p, hp, rfl⟩
    simpa using hm
  have hspec := looAux_spec nodes mats alpha causal_genes hnd
    (causal_genes.map Prod.fst) [] hnd (by simp) (by intro x; simp) hseeds
  rw [hfe] at hspec
  simp only [List.map_nil, List.append_nil, List.nil_append] at hspec
  obtain ⟨ranks, hrun, _, hprop⟩ := hspec
  exact ⟨ranks, (causal_genes.map Prod.fst).map (fun t => (t, (1 : ℚ))),
    hrun, fun s k hk => (hprop s k hk).2.2, rfl⟩

theorem claim_C7_witness :
    ((([("A", (1 : ℚ))]).map Prod.fst).Nodup ∧
      (∀ s ∈ ([("A", (1 : ℚ))]).map Prod.fst, s ∈ exampleNodes)) ∧
    (∃ ranks final,
      leave_one_out exampleNodes (get_adjacency_matrices pathA 2)
          [("A", (1 : ℚ))] (1 / 2) = some (ranks, final) ∧
      (∀ s k, (s, k) ∈ ranks →
        rankOf exampleNodes (get_adjacency_matrices pathA 2) (1 / 2)
          [("A", (1 : ℚ))] s = some k) ∧
      final = (([("A", (1 : ℚ))]).map Prod.fst).map
        (fun s => (s, (1 : ℚ)))) :=
  ⟨⟨by decide, by decide⟩,
    claim_C7 exampleNodes (get_adjacency_matrices pathA 2) [("A", (1 : ℚ))]
      (1 / 2) (by decide) (by decide)⟩

/-! ## Network Model: parse_interactome (data_parser.py, edge-list variant)

Input records are the already-split SIF lines `(node1, weight_or_type,
node2)`, with the middle field carried as the parsed float used when
`weighted` is true.  The fatal `MalformedInputError` cases (wrong field
count, non-numeric weight) are input-format failures that the claims treated
here set aside. -/

/-- The running state of the `parse_interactome` loop: node counter, the
name-to-index dict, the edge list, and the `edge2weight` dict.  The Python
keys `str(i1) + '&' + str(i2)` are modelled by the index pairs `(i1, i2)`
themselves (the string encoding is injective on pairs); dict keys are unique
(an entry is only ever inserted when its key is absent). -/
structure PIState where
  num_nodes : ℕ
  ENSG2idx : List (String × ℕ)
  interactome : List (ℕ × ℕ × ℚ)
  edge2weight : List ((ℕ × ℕ) × ℚ)
deriving DecidableEq

/-- Models `if node not in ENSG2idx: ENSG2idx[node] = num_nodes; num_nodes += 1`. -/
def addNode (st : PIState) (nm : String) : PIState :=
  if (st.ENSG2idx.lookup nm).isSome then st
  else { st with ENSG2idx := st.ENSG2idx ++ [(nm, st.num_nodes)],
                 num_nodes := st.num_nodes + 1 }

/-- Models `ENSG2idx[node]` (always called after the node has been assigned, so the
default is never reached on the parser's executions). -/
def idxOf (st : PIState) (nm : String) : ℕ :=
  (st.ENSG2idx.lookup nm).getD 0

/-- Edge creation part of the `for line in f` loop body of
`parse_interactome` (data_parser.py), after the endpoint indices `i1`, `i2`
and the effective weight have been computed: dedupe / conflict-check against
`edge2weight`, create the edge, and for an undirected network check or
create the reverse edge.  `Except.error` is the fatal `raise Exception`. -/
def piStepCore (directed : Bool) (st : PIState) (i1 i2 : ℕ) (weight : ℚ) :
    Except String PIState :=
  match st.edge2weight.lookup (i1, i2) with
  | some w0 =>
      if w0 = weight then .ok st
      else .error "same interaction several times with different weights"
  | none =>
      let st2 : PIState := { st with
        interactome := st.interactome ++ [(i1, i2, weight)],
        edge2weight := ((i1, i2), weight) :: st.edge2weight }
      if directed then .ok st2
      else
        match st2.edge2weight.lookup (i2, i1) with
        | some w0 =>
            if w0 = weight then .ok st2
            else .error "same interaction in both directions with different weights"
        | none =>
            .ok { st2 with
              interactome := st2.interactome ++ [(i2, i1, weight)],
              edge2weight := ((i2, i1), weight) :: st2.edge2weight }

/-- Whole body of the `for line in f` loop of `parse_interactome`
(data_parser.py): assign indices to previously unseen endpoints (source
before destination), compute the effective weight (`1.0` unless `weighted`),
then run the edge-creation part. -/
def piStep (weighted directed : Bool) (st0 : PIState)
    (r : String × ℚ × String) : Except String PIState :=
  piStepCore directed (addNode (addNode st0 r.1) r.2.2)
    (idxOf (addNode (addNode st0 r.1) r.2.2) r.1)
    (idxOf (addNode (addNode st0 r.1) r.2.2) r.2.2)
    (if weighted then r.2.1 else 1)

/-- Initial parser state. -/
def piInit : PIState := ⟨0, [], [], []⟩

/-- Models `parse_interactome(interactome_file, weighted, directed)` of
data_parser.py, over the already-split records of the file. -/
def parse_interactome (records : List (String × ℚ × String))
    (weighted directed : Bool) : Except String PIState :=
  records.foldlM (piStep weighted directed) piInit

/-- The edge list built by a successful parse (empty on a failed one). -/
def parsedEdges (records : List (String × ℚ × String))
    (weighted directed : Bool) : List (ℕ × ℕ × ℚ) :=
  match parse_interactome records weighted directed with
  | .ok st => st.interactome
  | .error _ => []

/-- The effective weight of a record: the parsed second field when
`weighted`, else 1.0. -/
def effWeight (weighted : Bool) (r : String × ℚ × String) : ℚ :=
  if weighted then r.2.1 else 1

/-- Two records name the same edge: the same ordered `(source, dest)` pair,
or — only when the network is undirected — the reversed pair. -/
def samePair (directed : Bool) (r1 r2 : String × ℚ × String) : Prop :=
  if directed then r1.1 = r2.1 ∧ r1.2.2 = r2.2.2
  else (r1.1 = r2.1 ∧ r1.2.2 = r2.2.2) ∨ (r1.1 = r2.2.2 ∧ r1.2.2 = r2.1)

/-- Some earlier and some later record of the stream name the same edge with
two different effective weights. -/
def weightConflict (weighted directed : Bool)
    (records : List (String × ℚ × String)) : Prop :=
  ∃ r1 r2, [r1, r2].Sublist records ∧ samePair directed r1 r2 ∧
    effWeight weighted r1 ≠ effWeight weighted r2

/-- A record matches the name pair `(n1, n2)`: directly, or reversed when
the network is undirected. -/
def recMatches (directed : Bool) (r : String × ℚ × String)
    (n1 n2 : String) : Prop :=
  (r.1 = n1 ∧ r.2.2 = n2) ∨ (directed = false ∧ r.1 = n2 ∧ r.2.2 = n1)

/-- A name occurs in a record of the stream. -/
def nameSeen (seen : List (String × ℚ × String)) (nm : String) : Prop :=
  ∃ r ∈ seen, r.1 = nm ∨ r.2.2 = nm

lemma lookup_append_some {α β : Type} [BEq α] (l1 l2 : List (α × β)) (x : α)
    (v : β) (h : l1.lookup x = some v) : (l1 ++ l2).lookup x = some v := by
  induction l1 with
  | nil => simp [List.lookup] at h
  | cons p t ih =>
    rw [List.cons_append]
    by_cases hx : (x == p.1) = true
    · simp only [List.lookup, hx] at h ⊢
      exact h
    · simp only [List.lookup, hx] at h ⊢
      simp only [Bool.false_eq_true] at *
      exact ih h

lemma lookup_append_none {α β : Type} [BEq α] (l1 l2 : List (α × β)) (x : α)
    (h : l1.lookup x = none) : (l1 ++ l2).lookup x = l2.lookup x := by
  induction l1 with
  | nil => simp
  | cons p t ih =>
    rw [List.cons_append]
    by_cases hx : (x == p.1) = true
    · simp only [List.lookup, hx] at h
      cases h
    · simp only [List.lookup, hx] at h ⊢
      simp only [Bool.false_eq_true] at *
      exact ih h

lemma addNode_edge2weight (st : PIState) (nm : String) :
    (addNode st nm).edge2weight = st.edge2weight := by
  unfold addNode
  split <;> rfl

lemma addNode_interactome (st : PIState) (nm : String) :
    (addNode st nm).interactome = st.interactome := by
  unfold addNode
  split <;> rfl

/-- Single characterization of lookups after `addNode`. -/
lemma addNode_lookup (st : PIState) (nm x : String) :
    (addNode st nm).ENSG2idx.lookup x =
      if x = nm ∧ st.ENSG2idx.lookup nm = none then some st.num_nodes
      else st.ENSG2idx.lookup x := by
  unfold addNode
  by_cases hp : (st.ENSG2idx.lookup nm).isSome
  · rw [if_pos hp, if_neg]
    rintro ⟨-, hnone⟩
    rw [hnone] at hp
    cases hp
  · have hnone : st.ENSG2idx.lookup nm = none :=
      Option.not_isSome_iff_eq_none.mp hp
    rw [if_neg hp]
    by_cases hx : x = nm
    · subst hx
      rw [if_pos ⟨rfl, hnone⟩]
      show (st.ENSG2idx ++ [(x, st.num_nodes)]).lookup x = some st.num_nodes
      rw [lookup_append_none _ _ _ hnone]
      simp [List.lookup]
    · rw [if_neg (fun h => hx h.1)]
      show (st.ENSG2idx ++ [(nm, st.num_nodes)]).lookup x =
        st.ENSG2idx.lookup x
      cases hl : st.ENSG2idx.lookup x with
      | some v => exact lookup_append_some _ _ _ _ hl
      | none =>
        rw [lookup_append_none _ _ _ hl]
        simp only [List.lookup]
        rw [beq_eq_false_iff_ne.mpr hx]

lemma addNode_num_nodes_le (st : PIState) (nm : String) :
    st.num_nodes ≤ (addNode st nm).num_nodes := by
  unfold addNode
  split
  · exact le_refl _
  · exact Nat.le_succ _

lemma lookup_idxOf (st : PIState) (nm : String)
    (h : (st.ENSG2idx.lookup nm).isSome) :
    st.ENSG2idx.lookup nm = some (idxOf st nm) := by
  cases hl : st.ENSG2idx.lookup nm with
  | some v => simp [idxOf, hl]
  | none => rw [hl] at h; cases h

lemma addNode_num_nodes (st : PIState) (nm : String) :
    (addNode st nm).num_nodes =
      if (st.ENSG2idx.lookup nm).isSome then st.num_nodes
      else st.num_nodes + 1 := by
  unfold addNode
  by_cases hp : (st.ENSG2idx.lookup nm).isSome
  · rw [if_pos hp, if_pos hp]
  · rw [if_neg hp, if_neg hp]

lemma addNode_isSome (st : PIState) (nm x : String) :
    ((addNode st nm).ENSG2idx.lookup x).isSome ↔
      ((st.ENSG2idx.lookup x).isSome ∨ x = nm) := by
  rw [addNode_lookup]
  split
  · rename_i hc
    simp [hc.1]
  · rename_i hc
    constructor
    · exact fun h => Or.inl h
    · rintro (h | rfl)
      · exact h
      · rcases hl : st.ENSG2idx.lookup x with - | v
        · exact absurd ⟨rfl, hl⟩ hc
        · simp


lemma addNode_lookup_stable (st : PIState) (nm x : String)
    (h : (st.ENSG2idx.lookup x).isSome) :
    (addNode st nm).ENSG2idx.lookup x = st.ENSG2idx.lookup x := by
  rw [addNode_lookup]
  split
  · rename_i hc
    rw [hc.1, hc.2] at h
    cases h
  · rfl

lemma addNode_bound (st : PIState) (nm : String)
    (hb : ∀ x i, st.ENSG2idx.lookup x = some i → i < st.num_nodes) :
    ∀ x i, (addNode st nm).ENSG2idx.lookup x = some i →
      i < (addNode st nm).num_nodes := by
  intro x i h
  rw [addNode_lookup] at h
  rw [addNode_num_nodes]
  split at h
  · rename_i hc
    have hi := Option.some.inj h
    rw [if_neg (by simp [hc.2])]
    omega
  · rename_i hc
    have hlt := hb x i h
    split
    · exact hlt
    · omega

lemma addNode_inj (st : PIState) (nm : String)
    (hb : ∀ x i, st.ENSG2idx.lookup x = some i → i < st.num_nodes)
    (hi : ∀ x y i, st.ENSG2idx.lookup x = some i →
      st.ENSG2idx.lookup y = some i → x = y) :
    ∀ x y i, (addNode st nm).ENSG2idx.lookup x = some i →
      (addNode st nm).ENSG2idx.lookup y = some i → x = y := by
  intro x y i hx hy
  rw [addNode_lookup] at hx hy
  split at hx <;> split at hy
  · rename_i hcx hcy
    rw [hcx.1, hcy.1]
  · rename_i hcx hcy
    exfalso
    have hxi : i = st.num_nodes := by cases hx; rfl
    exact absurd (hb y i hy) (by omega)
  · rename_i hcx hcy
    exfalso
    have hyi : i = st.num_nodes := by cases hy; rfl
    exact absurd (hb x i hx) (by omega)
  · exact hi x y i hx hy

lemma nameSeen_append_singleton (seen : List (String × ℚ × String))
    (r : String × ℚ × String) (nm : String) :
    nameSeen (seen ++ [r]) nm ↔
      (nameSeen seen nm ∨ nm = r.1 ∨ nm = r.2.2) := by
  unfold nameSeen
  constructor
  · rintro ⟨q, hq, hqe⟩
    rcases List.mem_append.mp hq with hq2 | hq2
    · exact Or.inl ⟨q, hq2, hqe⟩
    · rw [List.mem_singleton] at hq2
      subst hq2
      rcases hqe with h | h
      · exact Or.inr (Or.inl h.symm)
      · exact Or.inr (Or.inr h.symm)
  · rintro (⟨q, hq, hqe⟩ | rfl | rfl)
    · exact ⟨q, List.mem_append_left _ hq, hqe⟩
    · exact ⟨r, List.mem_append_right _ (List.mem_singleton_self r),
        Or.inl rfl⟩
    · exact ⟨r, List.mem_append_right _ (List.mem_singleton_self r),
        Or.inr rfl⟩

lemma e2w_cons_lookup (key : ℕ × ℕ) (w : ℚ) (l : List ((ℕ × ℕ) × ℚ))
    (q : ℕ × ℕ) :
    (((key, w) :: l).lookup q) = if q = key then some w else l.lookup q := by
  by_cases hq : q = key
  · simp [List.lookup, hq]
  · simp only [List.lookup]
    rw [beq_eq_false_iff_ne.mpr hq, if_neg hq]

/-- Loop invariant of the edge-list parser, relating the state to the
conflict-free prefix `seen` of processed records. -/
structure PIInv (weighted directed : Bool)
    (seen : List (String × ℚ × String)) (st : PIState) : Prop where
  names : ∀ nm, ((st.ENSG2idx.lookup nm).isSome) ↔ nameSeen seen nm
  bound : ∀ nm i, st.ENSG2idx.lookup nm = some i → i < st.num_nodes
  inj : ∀ nm nm2 i, st.ENSG2idx.lookup nm = some i →
    st.ENSG2idx.lookup nm2 = some i → nm = nm2
  e2w : ∀ i1 i2 w, st.edge2weight.lookup (i1, i2) = some w ↔
    ∃ n1 n2, st.ENSG2idx.lookup n1 = some i1 ∧
      st.ENSG2idx.lookup n2 = some i2 ∧
      ∃ q ∈ seen, recMatches directed q n1 n2 ∧ effWeight weighted q = w
  edges : ∀ i1 i2 w, (i1, i2, w) ∈ st.interactome ↔
    st.edge2weight.lookup (i1, i2) = some w
  dedup : (st.interactome.map (fun e => (e.1, e.2.1))).Nodup
  symm : directed = false → ∀ i1 i2 w,
    st.edge2weight.lookup (i1, i2) = some w →
    st.edge2weight.lookup (i2, i1) = some w

lemma piInv_init (weighted directed : Bool) :
    PIInv weighted directed [] piInit := by
  refine ⟨?_, ?_, ?_, ?_, ?_, ?_, ?_⟩
  · intro nm
    simp [piInit, List.lookup, nameSeen]
  · intro nm i h
    simp [piInit, List.lookup] at h
  · intro nm nm2 i h
    simp [piInit, List.lookup] at h
  · intro i1 i2 w
    simp [piInit, List.lookup, nameSeen]
  · intro i1 i2 w
    simp [piInit, List.lookup]
  · simp [piInit]
  · intro _ i1 i2 w h
    simp [piInit, List.lookup] at h

lemma samePair_iff_recMatches (directed : Bool)
    (r1 r2 : String × ℚ × String) :
    samePair directed r1 r2 ↔ recMatches directed r1 r2.1 r2.2.2 := by
  unfold samePair recMatches
  cases directed <;> simp

lemma recMatches_samePair (directed : Bool) (rA rB : String × ℚ × String)
    (n1 n2 : String) (hA : recMatches directed rA n1 n2)
    (hB : recMatches directed rB n1 n2) : samePair directed rA rB := by
  unfold recMatches at hA hB
  unfold samePair
  rcases hA with ⟨a1, a2⟩ | ⟨hdf, a1, a2⟩ <;>
    rcases hB with ⟨b1, b2⟩ | ⟨hdf2, b1, b2⟩
  · split
    · exact ⟨a1.trans b1.symm, a2.trans b2.symm⟩
    · exact Or.inl ⟨a1.trans b1.symm, a2.trans b2.symm⟩
  · rw [hdf2]
    simp only [Bool.false_eq_true, if_false]
    exact Or.inr ⟨a1.trans b2.symm, a2.trans b1.symm⟩
  · rw [hdf]
    simp only [Bool.false_eq_true, if_false]
    exact Or.inr ⟨a1.trans b2.symm, a2.trans b1.symm⟩
  · rw [hdf]
    simp only [Bool.false_eq_true, if_false]
    exact Or.inl ⟨a1.trans b1.symm, a2.trans b2.symm⟩

lemma mem_mem_sublist_or {α : Type} (l : List α) (a b : α) (ha : a ∈ l)
    (hb : b ∈ l) : a = b ∨ [a, b].Sublist l ∨ [b, a].Sublist l := by
  induction l with
  | nil => cases ha
  | cons x t ih =>
    rcases List.mem_cons.mp ha with rfl | ha2
    · rcases List.mem_cons.mp hb with rfl | hb2
      · exact Or.inl rfl
      · exact Or.inr (Or.inl
          (List.Sublist.cons₂ a (List.singleton_sublist.mpr hb2)))
    · rcases List.mem_cons.mp hb with rfl | hb2
      · exact Or.inr (Or.inr
          (List.Sublist.cons₂ b (List.singleton_sublist.mpr ha2)))
      · rcases ih ha2 hb2 with h | h | h
        · exact Or.inl h
        · exact Or.inr (Or.inl (h.cons x))
        · exact Or.inr (Or.inr (h.cons x))

lemma matching_weight_unique (weighted directed : Bool)
    (seen : List (String × ℚ × String))
    (hnc : ¬ weightConflict weighted directed seen)
    (rA rB : String × ℚ × String) (hA : rA ∈ seen) (hB : rB ∈ seen)
    (n1 n2 : String) (hmA : recMatches directed rA n1 n2)
    (hmB : recMatches directed rB n1 n2) :
    effWeight weighted rA = effWeight weighted rB := by
  by_contra hne
  rcases mem_mem_sublist_or seen rA rB hA hB with rfl | h | h
  · exact hne rfl
  · exact hnc ⟨rA, rB, h, recMatches_samePair directed rA rB n1 n2 hmA hmB,
      hne⟩
  · exact hnc ⟨rB, rA, h, recMatches_samePair directed rB rA n1 n2 hmB hmA,
      fun he => hne he.symm⟩

lemma weightConflict_mono (weighted directed : Bool)
    {l1 l2 : List (String × ℚ × String)} (h : l1.Sublist l2)
    (hc : weightConflict weighted directed l1) :
    weightConflict weighted directed l2 := by
  obtain ⟨r1, r2, hsub, hsp, hne⟩ := hc
  exact ⟨r1, r2, hsub.trans h, hsp, hne⟩

lemma weightConflict_append_singleton (weighted directed : Bool)
    (seen : List (String × ℚ × String)) (r : String × ℚ × String) :
    weightConflict weighted directed (seen ++ [r]) ↔
      (weightConflict weighted directed seen ∨
        ∃ r1 ∈ seen, samePair directed r1 r ∧
          effWeight weighted r1 ≠ effWeight weighted r) := by
  constructor
  · rintro ⟨r1, r2, hsub, hsp, hne⟩
    rcases List.sublist_append_iff.mp hsub with ⟨s1, s2, hspl, hs1, hs2⟩
    rcases s1 with - | ⟨a, s1t⟩
    · rw [List.nil_append] at hspl
      subst hspl
      have hlen := hs2.length_le
      simp at hlen
    · rcases s1t with - | ⟨b, s1tt⟩
      · have ha : a = r1 := by
          have := congrArg (fun l => List.getD l 0 r1) hspl
          simpa using this.symm
        subst ha
        have hs2e : s2 = [r2] := by
          have := congrArg List.tail hspl
          simpa using this.symm
        subst hs2e
        have hr2r : r2 = r := by
          have := List.singleton_sublist.mp hs2
          simpa using this
        subst hr2r
        exact Or.inr ⟨a, List.singleton_sublist.mp hs1, hsp, hne⟩
      · rw [List.cons_append, List.cons_append] at hspl
        injection hspl with he1 hrest
        injection hrest with he2 htail
        obtain ⟨hs1e, hs2e⟩ := List.append_eq_nil.mp htail.symm
        subst hs1e
        subst he1
        subst he2
        exact Or.inl ⟨r1, r2, hs1, hsp, hne⟩
  · rintro (hc | ⟨r1, hr1, hsp, hne⟩)
    · exact weightConflict_mono weighted directed
        (List.sublist_append_left seen [r]) hc
    · exact ⟨r1, r, List.Sublist.append (List.singleton_sublist.mpr hr1)
        (List.Sublist.refl [r]), hsp, hne⟩

section ParserInvariant

variable {weighted directed : Bool} {seen : List (String × ℚ × String)}
  {r : String × ℚ × String} {stA : PIState} {i1 i2 : ℕ}

variable
  (hnamesA : ∀ nm, ((stA.ENSG2idx.lookup nm).isSome) ↔
    nameSeen (seen ++ [r]) nm)
  (hboundA : ∀ nm i, stA.ENSG2idx.lookup nm = some i → i < stA.num_nodes)
  (hinjA : ∀ nm nm2 i, stA.ENSG2idx.lookup nm = some i →
    stA.ENSG2idx.lookup nm2 = some i → nm = nm2)
  (he2wA : ∀ a b w, stA.edge2weight.lookup (a, b) = some w ↔
    ∃ n1 n2, stA.ENSG2idx.lookup n1 = some a ∧
      stA.ENSG2idx.lookup n2 = some b ∧
      ∃ q ∈ seen, recMatches directed q n1 n2 ∧ effWeight weighted q = w)
  (hedgesA : ∀ a b w, (a, b, w) ∈ stA.interactome ↔
    stA.edge2weight.lookup (a, b) = some w)
  (hdedupA : (stA.interactome.map (fun e => (e.1, e.2.1))).Nodup)
  (hsymmA : directed = false → ∀ a b w,
    stA.edge2weight.lookup (a, b) = some w →
    stA.edge2weight.lookup (b, a) = some w)
  (hlook1 : stA.ENSG2idx.lookup r.1 = some i1)
  (hlook2 : stA.ENSG2idx.lookup r.2.2 = some i2)
  (hcase : stA.edge2weight.lookup (i1, i2) = none)

include hnamesA hboundA hinjA he2wA hedgesA hdedupA hsymmA hlook1 hlook2
include hcase

/-- After inserting the fresh edge `(i1, i2)` in a directed parse, the
invariant holds for the extended prefix. -/
lemma insert_inv_directed (hdir : directed = true) :
    PIInv weighted directed (seen ++ [r])
      ⟨stA.num_nodes, stA.ENSG2idx,
        stA.interactome ++ [(i1, i2, effWeight weighted r)],
        ((i1, i2), effWeight weighted r) :: stA.edge2weight⟩ := by
  have hpair_notmem : ∀ w, (i1, i2, w) ∉ stA.interactome := by
    intro w hmem
    rw [hedgesA, hcase] at hmem
    cases hmem
  refine ⟨hnamesA, hboundA, hinjA, ?_, ?_, ?_, ?_⟩
  · intro a b w
    show (((i1, i2), effWeight weighted r) ::
      stA.edge2weight).lookup (a, b) = some w ↔ _
    rw [e2w_cons_lookup]
    by_cases hab : ((a : ℕ), (b : ℕ)) = (i1, i2)
    · have ha : a = i1 := congrArg Prod.fst hab
      have hb : b = i2 := congrArg Prod.snd hab
      rw [if_pos hab]
      constructor
      · intro h
        have hw : effWeight weighted r = w := Option.some.inj h
        refine ⟨r.1, r.2.2, by rw [ha]; exact hlook1, by rw [hb]; exact hlook2,
          r, List.mem_append_right _ (List.mem_singleton_self r),
          Or.inl ⟨rfl, rfl⟩, hw⟩
      · rintro ⟨n1, n2, h1, h2, q, hq, hm, hwq⟩
        rcases List.mem_append.mp hq with hq2 | hq2
        · exfalso
          have hlk := (he2wA a b w).mpr ⟨n1, n2, h1, h2, q, hq2, hm, hwq⟩
          rw [hab, hcase] at hlk
          cases hlk
        · rw [List.mem_singleton] at hq2
          subst hq2
          rcases hm with ⟨hm1, hm2⟩ | ⟨hdirf, -, -⟩
          · rw [← hwq]
          · rw [hdir] at hdirf
            cases hdirf
    · rw [if_neg hab, he2wA]
      constructor
      · rintro ⟨n1, n2, h1, h2, q, hq, hm, hwq⟩
        exact ⟨n1, n2, h1, h2, q, List.mem_append_left _ hq, hm, hwq⟩
      · rintro ⟨n1, n2, h1, h2, q, hq, hm, hwq⟩
        rcases List.mem_append.mp hq with hq2 | hq2
        · exact ⟨n1, n2, h1, h2, q, hq2, hm, hwq⟩
        · exfalso
          rw [List.mem_singleton] at hq2
          subst hq2
          rcases hm with ⟨hm1, hm2⟩ | ⟨hdirf, -, -⟩
          · rw [← hm1] at h1
            rw [← hm2] at h2
            exact hab (Prod.ext_iff.mpr
              ⟨Option.some.inj (h1.symm.trans hlook1),
               Option.some.inj (h2.symm.trans hlook2)⟩)
          · rw [hdir] at hdirf
            cases hdirf
  · intro a b w
    show (a, b, w) ∈ stA.interactome ++ [(i1, i2, effWeight weighted r)] ↔
      (((i1, i2), effWeight weighted r) ::
        stA.edge2weight).lookup (a, b) = some w
    rw [e2w_cons_lookup, List.mem_append, List.mem_singleton]
    by_cases hab : ((a : ℕ), (b : ℕ)) = (i1, i2)
    · have ha : a = i1 := congrArg Prod.fst hab
      have hb : b = i2 := congrArg Prod.snd hab
      subst ha
      subst hb
      rw [if_pos rfl]
      constructor
      · rintro (hmem | heq3)
        · exact absurd hmem (hpair_notmem w)
        · have hw : w = effWeight weighted r := by
            have := congrArg (fun e => e.2.2) heq3
            simpa using this
          rw [hw]
      · intro h
        right
        rw [Option.some.inj h]
    · rw [if_neg hab, ← hedgesA]
      constructor
      · rintro (hmem | heq3)
        · exact hmem
        · exfalso
          apply hab
          have h1 := congrArg (fun e => e.1) heq3
          have h2 := congrArg (fun e => e.2.1) heq3
          simp only at h1 h2
          exact Prod.ext_iff.mpr ⟨h1, h2⟩
      · exact fun h => Or.inl h
  · show ((stA.interactome ++ [(i1, i2, effWeight weighted r)]).map
      (fun e => (e.1, e.2.1))).Nodup
    rw [List.map_append]
    refine (List.perm_append_singleton _ _).nodup_iff.mpr ?_
    refine List.nodup_cons.mpr ⟨?_, hdedupA⟩
    intro hmem
    obtain ⟨e, he, hee⟩ := List.mem_map.mp hmem
    have h1 := congrArg Prod.fst hee
    have h2 := congrArg Prod.snd hee
    simp only at h1 h2
    have : (i1, i2, e.2.2) ∈ stA.interactome := by
      have he2 : e = (i1, i2, e.2.2) := by
        refine Prod.ext_iff.mpr ⟨h1, Prod.ext_iff.mpr ⟨h2, rfl⟩⟩
      rw [← he2]
      exact he
    exact hpair_notmem e.2.2 this
  · intro hdf
    rw [hdir] at hdf
    cases hdf

/-- After inserting a fresh self-pair edge (`i2 = i1`) in an undirected
parse, the invariant holds for the extended prefix (the reverse lookup finds
the just-created edge with the same weight, so no reverse edge is added). -/
lemma insert_inv_undirected_self (hdir : directed = false) (h12 : i2 = i1) :
    PIInv weighted directed (seen ++ [r])
      ⟨stA.num_nodes, stA.ENSG2idx,
        stA.interactome ++ [(i1, i2, effWeight weighted r)],
        ((i1, i2), effWeight weighted r) :: stA.edge2weight⟩ := by
  have hpair_notmem : ∀ w, (i1, i2, w) ∉ stA.interactome := by
    intro w hmem
    rw [hedgesA, hcase] at hmem
    cases hmem
  refine ⟨hnamesA, hboundA, hinjA, ?_, ?_, ?_, ?_⟩
  · intro a b w
    show (((i1, i2), effWeight weighted r) ::
      stA.edge2weight).lookup (a, b) = some w ↔ _
    rw [e2w_cons_lookup]
    by_cases hab : ((a : ℕ), (b : ℕ)) = (i1, i2)
    · have ha : a = i1 := congrArg Prod.fst hab
      have hb : b = i2 := congrArg Prod.snd hab
      rw [if_pos hab]
      constructor
      · intro h
        have hw : effWeight weighted r = w := Option.some.inj h
        refine ⟨r.1, r.2.2, by rw [ha]; exact hlook1, by rw [hb]; exact hlook2,
          r, List.mem_append_right _ (List.mem_singleton_self r),
          Or.inl ⟨rfl, rfl⟩, hw⟩
      · rintro ⟨n1, n2, h1, h2, q, hq, hm, hwq⟩
        rcases List.mem_append.mp hq with hq2 | hq2
        · exfalso
          have hlk := (he2wA a b w).mpr ⟨n1, n2, h1, h2, q, hq2, hm, hwq⟩
          rw [hab, hcase] at hlk
          cases hlk
        · rw [List.mem_singleton] at hq2
          subst hq2
          rcases hm with ⟨hm1, hm2⟩ | ⟨-, hm1, hm2⟩ <;> rw [← hwq]
    · rw [if_neg hab, he2wA]
      constructor
      · rintro ⟨n1, n2, h1, h2, q, hq, hm, hwq⟩
        exact ⟨n1, n2, h1, h2, q, List.mem_append_left _ hq, hm, hwq⟩
      · rintro ⟨n1, n2, h1, h2, q, hq, hm, hwq⟩
        rcases List.mem_append.mp hq with hq2 | hq2
        · exact ⟨n1, n2, h1, h2, q, hq2, hm, hwq⟩
        · exfalso
          rw [List.mem_singleton] at hq2
          subst hq2
          apply hab
          rcases hm with ⟨hm1, hm2⟩ | ⟨-, hm1, hm2⟩
          · rw [← hm1] at h1
            rw [← hm2] at h2
            exact Prod.ext_iff.mpr
              ⟨Option.some.inj (h1.symm.trans hlook1),
               Option.some.inj (h2.symm.trans hlook2)⟩
          · rw [← hm2] at h1
            rw [← hm1] at h2
            have ha : a = i2 := Option.some.inj (h1.symm.trans hlook2)
            have hb : b = i1 := Option.some.inj (h2.symm.trans hlook1)
            exact Prod.ext_iff.mpr ⟨by rw [ha, h12], by rw [hb, ← h12]⟩
  · intro a b w
    show (a, b, w) ∈ stA.interactome ++ [(i1, i2, effWeight weighted r)] ↔
      (((i1, i2), effWeight weighted r) ::
        stA.edge2weight).lookup (a, b) = some w
    rw [e2w_cons_lookup, List.mem_append, List.mem_singleton]
    by_cases hab : ((a : ℕ), (b : ℕ)) = (i1, i2)
    · have ha : a = i1 := congrArg Prod.fst hab
      have hb : b = i2 := congrArg Prod.snd hab
      subst ha
      subst hb
      rw [if_pos rfl]
      constructor
      · rintro (hmem | heq3)
        · exact absurd hmem (hpair_notmem w)
        · have hw : w = effWeight weighted r := by
            have := congrArg (fun e => e.2.2) heq3
            simpa using this
          rw [hw]
      · intro h
        right
        rw [Option.some.inj h]
    · rw [if_neg hab, ← hedgesA]
      constructor
      · rintro (hmem | heq3)
        · exact hmem
        · exfalso
          apply hab
          have h1 := congrArg (fun e => e.1) heq3
          have h2 := congrArg (fun e => e.2.1) heq3
          simp only at h1 h2
          exact Prod.ext_iff.mpr ⟨h1, h2⟩
      · exact fun h => Or.inl h
  · show ((stA.interactome ++ [(i1, i2, effWeight weighted r)]).map
      (fun e => (e.1, e.2.1))).Nodup
    rw [List.map_append]
    refine (List.perm_append_singleton _ _).nodup_iff.mpr ?_
    refine List.nodup_cons.mpr ⟨?_, hdedupA⟩
    intro hmem
    obtain ⟨e, he, hee⟩ := List.mem_map.mp hmem
    have h1 := congrArg Prod.fst hee
    have h2 := congrArg Prod.snd hee
    simp only at h1 h2
    have : (i1, i2, e.2.2) ∈ stA.interactome := by
      have he2 : e = (i1, i2, e.2.2) := by
        refine Prod.ext_iff.mpr ⟨h1, Prod.ext_iff.mpr ⟨h2, rfl⟩⟩
      rw [← he2]
      exact he
    exact hpair_notmem e.2.2 this
  · intro hdf2 a b w h
    show (((i1, i2), effWeight weighted r) ::
      stA.edge2weight).lookup (b, a) = some w
    replace h : (((i1, i2), effWeight weighted r) ::
        stA.edge2weight).lookup (a, b) = some w := h
    rw [e2w_cons_lookup] at h ⊢
    by_cases hab : ((a : ℕ), (b : ℕ)) = (i1, i2)
    · have ha : a = i1 := congrArg Prod.fst hab
      have hb : b = i2 := congrArg Prod.snd hab
      rw [if_pos hab] at h
      rw [if_pos (Prod.ext_iff.mpr ⟨by rw [hb, h12], by rw [ha, ← h12]⟩)]
      exact h
    · rw [if_neg hab] at h
      have hba : ¬ ((b : ℕ), (a : ℕ)) = (i1, i2) := by
        intro hq
        apply hab
        have hb : b = i1 := congrArg Prod.fst hq
        have ha : a = i2 := congrArg Prod.snd hq
        exact Prod.ext_iff.mpr ⟨by rw [ha, h12], by rw [hb, ← h12]⟩
      rw [if_neg hba]
      exact hsymmA hdir a b w h

/-- After inserting a fresh non-self edge and its synthesized reverse in an
undirected parse, the invariant holds for the extended prefix. -/
lemma insert_inv_undirected_two (hdir : directed = false) (h12 : ¬ i2 = i1)
    (hrevnone : stA.edge2weight.lookup (i2, i1) = none) :
    PIInv weighted directed (seen ++ [r])
      ⟨stA.num_nodes, stA.ENSG2idx,
        (stA.interactome ++ [(i1, i2, effWeight weighted r)]) ++
          [(i2, i1, effWeight weighted r)],
        ((i2, i1), effWeight weighted r) ::
          ((i1, i2), effWeight weighted r) :: stA.edge2weight⟩ := by
  have hpair_notmem : ∀ w, (i1, i2, w) ∉ stA.interactome := by
    intro w hmem
    rw [hedgesA, hcase] at hmem
    cases hmem
  have hpair_notmem2 : ∀ w, (i2, i1, w) ∉ stA.interactome := by
    intro w hmem
    rw [hedgesA, hrevnone] at hmem
    cases hmem
  have hne12 : ¬ ((i1, i2) = ((i2 : ℕ), (i1 : ℕ))) := by
    intro hq
    exact h12 (congrArg Prod.fst hq).symm
  refine ⟨hnamesA, hboundA, hinjA, ?_, ?_, ?_, ?_⟩
  · intro a b w
    show (((i2, i1), effWeight weighted r) ::
      ((i1, i2), effWeight weighted r) ::
        stA.edge2weight).lookup (a, b) = some w ↔ _
    rw [e2w_cons_lookup, e2w_cons_lookup]
    by_cases hab2 : ((a : ℕ), (b : ℕ)) = (i2, i1)
    · have ha : a = i2 := congrArg Prod.fst hab2
      have hb : b = i1 := congrArg Prod.snd hab2
      rw [if_pos hab2]
      constructor
      · intro h
        have hw : effWeight weighted r = w := Option.some.inj h
        refine ⟨r.2.2, r.1, by rw [ha]; exact hlook2, by rw [hb]; exact hlook1,
          r, List.mem_append_right _ (List.mem_singleton_self r),
          Or.inr ⟨hdir, rfl, rfl⟩, hw⟩
      · rintro ⟨n1, n2, h1, h2, q, hq, hm, hwq⟩
        rcases List.mem_append.mp hq with hq2 | hq2
        · exfalso
          have hlk := (he2wA a b w).mpr ⟨n1, n2, h1, h2, q, hq2, hm, hwq⟩
          rw [hab2, hrevnone] at hlk
          cases hlk
        · rw [List.mem_singleton] at hq2
          subst hq2
          rcases hm with ⟨hm1, hm2⟩ | ⟨-, hm1, hm2⟩ <;> rw [← hwq]
    · rw [if_neg hab2]
      by_cases hab1 : ((a : ℕ), (b : ℕ)) = (i1, i2)
      · have ha : a = i1 := congrArg Prod.fst hab1
        have hb : b = i2 := congrArg Prod.snd hab1
        rw [if_pos hab1]
        constructor
        · intro h
          have hw : effWeight weighted r = w := Option.some.inj h
          refine ⟨r.1, r.2.2, by rw [ha]; exact hlook1,
            by rw [hb]; exact hlook2,
            r, List.mem_append_right _ (List.mem_singleton_self r),
            Or.inl ⟨rfl, rfl⟩, hw⟩
        · rintro ⟨n1, n2, h1, h2, q, hq, hm, hwq⟩
          rcases List.mem_append.mp hq with hq2 | hq2
          · exfalso
            have hlk := (he2wA a b w).mpr ⟨n1, n2, h1, h2, q, hq2, hm, hwq⟩
            rw [hab1, hcase] at hlk
            cases hlk
          · rw [List.mem_singleton] at hq2
            subst hq2
            rcases hm with ⟨hm1, hm2⟩ | ⟨-, hm1, hm2⟩ <;> rw [← hwq]
      · rw [if_neg hab1, he2wA]
        constructor
        · rintro ⟨n1, n2, h1, h2, q, hq, hm, hwq⟩
          exact ⟨n1, n2, h1, h2, q, List.mem_append_left _ hq, hm, hwq⟩
        · rintro ⟨n1, n2, h1, h2, q, hq, hm, hwq⟩
          rcases List.mem_append.mp hq with hq2 | hq2
          · exact ⟨n1, n2, h1, h2, q, hq2, hm, hwq⟩
          · exfalso
            rw [List.mem_singleton] at hq2
            subst hq2
            rcases hm with ⟨hm1, hm2⟩ | ⟨-, hm1, hm2⟩
            · rw [← hm1] at h1
              rw [← hm2] at h2
              exact hab1 (Prod.ext_iff.mpr
                ⟨Option.some.inj (h1.symm.trans hlook1),
                 Option.some.inj (h2.symm.trans hlook2)⟩)
            · rw [← hm2] at h1
              rw [← hm1] at h2
              exact hab2 (Prod.ext_iff.mpr
                ⟨Option.some.inj (h1.symm.trans hlook2),
                 Option.some.inj (h2.symm.trans hlook1)⟩)
  · intro a b w
    show (a, b, w) ∈ (stA.interactome ++ [(i1, i2, effWeight weighted r)]) ++
        [(i2, i1, effWeight weighted r)] ↔
      (((i2, i1), effWeight weighted r) ::
        ((i1, i2), effWeight weighted r) ::
          stA.edge2weight).lookup (a, b) = some w
    rw [e2w_cons_lookup, e2w_cons_lookup, List.mem_append, List.mem_append,
      List.mem_singleton, List.mem_singleton]
    by_cases hab2 : ((a : ℕ), (b : ℕ)) = (i2, i1)
    · have ha : a = i2 := congrArg Prod.fst hab2
      have hb : b = i1 := congrArg Prod.snd hab2
      subst ha
      subst hb
      rw [if_pos rfl]
      constructor
      · rintro ((hmem | heq3) | heq3)
        · exact absurd hmem (hpair_notmem2 w)
        · exfalso
          apply hne12
          have h1 := congrArg (fun e => e.1) heq3
          have h2 := congrArg (fun e => e.2.1) heq3
          simp only at h1 h2
          exact Prod.ext_iff.mpr ⟨h1.symm, h2.symm⟩
        · have hw : w = effWeight weighted r := by
            have := congrArg (fun e => e.2.2) heq3
            simpa using this
          rw [hw]
      · intro h
        right
        have hw := Option.some.inj h
        rw [hw]
    · rw [if_neg hab2]
      by_cases hab1 : ((a : ℕ), (b : ℕ)) = (i1, i2)
      · have ha : a = i1 := congrArg Prod.fst hab1
        have hb : b = i2 := congrArg Prod.snd hab1
        subst ha
        subst hb
        rw [if_pos rfl]
        constructor
        · rintro ((hmem | heq3) | heq3)
          · exact absurd hmem (hpair_notmem w)
          · have hw : w = effWeight weighted r := by
              have := congrArg (fun e => e.2.2) heq3
              simpa using this
            rw [hw]
          · exfalso
            apply hne12
            have h1 := congrArg (fun e => e.1) heq3
            have h2 := congrArg (fun e => e.2.1) heq3
            simp only at h1 h2
            exact Prod.ext_iff.mpr ⟨h2.symm, h1.symm⟩
        · intro h
          left
          right
          rw [Option.some.inj h]
      · rw [if_neg hab1, ← hedgesA]
        constructor
        · rintro ((hmem | heq3) | heq3)
          · exact hmem
          · exfalso
            apply hab1
            have h1 := congrArg (fun e => e.1) heq3
            have h2 := congrArg (fun e => e.2.1) heq3
            simp only at h1 h2
            exact Prod.ext_iff.mpr ⟨h1, h2⟩
          · exfalso
            apply hab2
            have h1 := congrArg (fun e => e.1) heq3
            have h2 := congrArg (fun e => e.2.1) heq3
            simp only at h1 h2
            exact Prod.ext_iff.mpr ⟨h1, h2⟩
        · exact fun h => Or.inl (Or.inl h)
  · show (((stA.interactome ++ [(i1, i2, effWeight weighted r)]) ++
      [(i2, i1, effWeight weighted r)]).map (fun e => (e.1, e.2.1))).Nodup
    rw [List.map_append, List.map_append]
    simp only [List.map_cons, List.map_nil]
    refine (List.perm_append_singleton _ _).nodup_iff.mpr ?_
    refine List.nodup_cons.mpr ⟨?_, ?_⟩
    · intro hmem
      rcases List.mem_append.mp hmem with hmem2 | hmem2
      · obtain ⟨e, he, hee⟩ := List.mem_map.mp hmem2
        have h1 := congrArg Prod.fst hee
        have h2 := congrArg Prod.snd hee
        simp only at h1 h2
        have : (i2, i1, e.2.2) ∈ stA.interactome := by
          have he2 : e = (i2, i1, e.2.2) :=
            Prod.ext_iff.mpr ⟨h1, Prod.ext_iff.mpr ⟨h2, rfl⟩⟩
          rw [← he2]
          exact he
        exact hpair_notmem2 e.2.2 this
      · rw [List.mem_singleton] at hmem2
        exact hne12 hmem2.symm
    · refine (List.perm_append_singleton _ _).nodup_iff.mpr ?_
      refine List.nodup_cons.mpr ⟨?_, hdedupA⟩
      intro hmem
      obtain ⟨e, he, hee⟩ := List.mem_map.mp hmem
      have h1 := congrArg Prod.fst hee
      have h2 := congrArg Prod.snd hee
      simp only at h1 h2
      have : (i1, i2, e.2.2) ∈ stA.interactome := by
        have he2 : e = (i1, i2, e.2.2) :=
          Prod.ext_iff.mpr ⟨h1, Prod.ext_iff.mpr ⟨h2, rfl⟩⟩
        rw [← he2]
        exact he
      exact hpair_notmem e.2.2 this
  · intro hdf2 a b w h
    show (((i2, i1), effWeight weighted r) ::
      ((i1, i2), effWeight weighted r) ::
        stA.edge2weight).lookup (b, a) = some w
    replace h : (((i2, i1), effWeight weighted r) ::
        ((i1, i2), effWeight weighted r) ::
          stA.edge2weight).lookup (a, b) = some w := h
    rw [e2w_cons_lookup, e2w_cons_lookup] at h ⊢
    by_cases hab2 : ((a : ℕ), (b : ℕ)) = (i2, i1)
    · have ha : a = i2 := congrArg Prod.fst hab2
      have hb : b = i1 := congrArg Prod.snd hab2
      rw [if_pos hab2] at h
      rw [if_neg (by
          intro hq
          have hb2 : b = i2 := congrArg Prod.fst hq
          exact h12 (hb2.symm.trans hb)),
        if_pos (Prod.ext_iff.mpr ⟨hb, ha⟩)]
      exact h
    · rw [if_neg hab2] at h
      by_cases hab1 : ((a : ℕ), (b : ℕ)) = (i1, i2)
      · have ha : a = i1 := congrArg Prod.fst hab1
        have hb : b = i2 := congrArg Prod.snd hab1
        rw [if_pos hab1] at h
        rw [if_pos (Prod.ext_iff.mpr ⟨hb, ha⟩)]
        exact h
      · rw [if_neg hab1] at h
        have hba2 : ¬ ((b : ℕ), (a : ℕ)) = (i2, i1) := by
          intro hq
          apply hab1
          exact Prod.ext_iff.mpr
            ⟨congrArg Prod.snd hq, congrArg Prod.fst hq⟩
        have hba1 : ¬ ((b : ℕ), (a : ℕ)) = (i1, i2) := by
          intro hq
          apply hab2
          exact Prod.ext_iff.mpr
            ⟨congrArg Prod.snd hq, congrArg Prod.fst hq⟩
        rw [if_neg hba2, if_neg hba1]
        exact hsymmA hdir a b w h

/- One loop iteration, after index assignment: on a conflict-free prefix,
the edge-creation part either succeeds and preserves the invariant on the
extended (still conflict-free) prefix, or fails exactly when the new record
conflicts with an earlier one. -/
omit hcase in
lemma piStepCore_spec (hnc : ¬ weightConflict weighted directed seen) :
    ((∃ st2, piStepCore directed stA i1 i2 (effWeight weighted r) =
        .ok st2 ∧ PIInv weighted directed (seen ++ [r]) st2) ∧
      ¬ weightConflict weighted directed (seen ++ [r])) ∨
    (((piStepCore directed stA i1 i2 (effWeight weighted r)).isOk = false) ∧
      weightConflict weighted directed (seen ++ [r])) := by
  have hkeyiff : ∀ w, stA.edge2weight.lookup (i1, i2) = some w ↔
      ∃ q ∈ seen, recMatches directed q r.1 r.2.2 ∧
        effWeight weighted q = w := by
    intro w
    rw [he2wA]
    constructor
    · rintro ⟨n1, n2, h1, h2, hrest⟩
      have hn1 : n1 = r.1 := hinjA n1 r.1 i1 h1 hlook1
      have hn2 : n2 = r.2.2 := hinjA n2 r.2.2 i2 h2 hlook2
      rw [hn1, hn2] at hrest
      exact hrest
    · intro h
      exact ⟨r.1, r.2.2, hlook1, hlook2, h⟩
  cases hcs : stA.edge2weight.lookup (i1, i2) with
  | some w0 =>
    obtain ⟨q0, hq0m, hq0match, hq0w⟩ := (hkeyiff w0).mp hcs
    by_cases hw0 : w0 = effWeight weighted r
    · left
      have hstep : piStepCore directed stA i1 i2 (effWeight weighted r) =
          .ok stA := by
        simp only [piStepCore, hcs, if_pos hw0]
      have hnc2 : ¬ weightConflict weighted directed (seen ++ [r]) := by
        rw [weightConflict_append_singleton]
        rintro (hc | ⟨r1, hr1, hsp, hne⟩)
        · exact hnc hc
        · have hm1 := (samePair_iff_recMatches directed r1 r).mp hsp
          have heq := matching_weight_unique weighted directed seen hnc r1 q0
            hr1 hq0m r.1 r.2.2 hm1 hq0match
          exact hne (by rw [heq, hq0w, hw0])
      refine ⟨⟨stA, hstep, ?_⟩, hnc2⟩
      refine ⟨hnamesA, hboundA, hinjA, ?_, hedgesA, hdedupA, hsymmA⟩
      intro a b w
      rw [he2wA]
      constructor
      · rintro ⟨n1, n2, h1, h2, q, hq, hm, hwq⟩
        exact ⟨n1, n2, h1, h2, q, List.mem_append_left _ hq, hm, hwq⟩
      · rintro ⟨n1, n2, h1, h2, q, hq, hm, hwq⟩
        rcases List.mem_append.mp hq with hq2 | hq2
        · exact ⟨n1, n2, h1, h2, q, hq2, hm, hwq⟩
        · rw [List.mem_singleton] at hq2
          rw [hq2] at hm hwq
          rcases hm with ⟨hm1, hm2⟩ | ⟨hdirf, hm1, hm2⟩
          · rw [← hm1] at h1
            rw [← hm2] at h2
            have ha : a = i1 := Option.some.inj (h1.symm.trans hlook1)
            have hb : b = i2 := Option.some.inj (h2.symm.trans hlook2)
            rw [ha, hb]
            refine ⟨r.1, r.2.2, hlook1, hlook2, q0, hq0m, hq0match, ?_⟩
            rw [hq0w, hw0]
            exact hwq
          · rw [← hm2] at h1
            rw [← hm1] at h2
            have ha : a = i2 := Option.some.inj (h1.symm.trans hlook2)
            have hb : b = i1 := Option.some.inj (h2.symm.trans hlook1)
            rw [ha, hb]
            have hsym := hsymmA hdirf i1 i2 w0 hcs
            have hw : w0 = w := by rw [hw0]; exact hwq
            rw [hw] at hsym
            exact (he2wA i2 i1 w).mp hsym
    · right
      have hstep : piStepCore directed stA i1 i2 (effWeight weighted r) =
          .error "same interaction several times with different weights" := by
        simp only [piStepCore, hcs, if_neg hw0]
      constructor
      · rw [hstep]
        rfl
      · rw [weightConflict_append_singleton]
        refine Or.inr ⟨q0, hq0m,
          (samePair_iff_recMatches directed q0 r).mpr hq0match, ?_⟩
        rw [hq0w]
        exact hw0
  | none =>
    have hnomatch : ∀ q ∈ seen, ¬ recMatches directed q r.1 r.2.2 := by
      intro q hq hm
      have h := (hkeyiff (effWeight weighted q)).mpr ⟨q, hq, hm, rfl⟩
      rw [hcs] at h
      cases h
    have hnc2 : ¬ weightConflict weighted directed (seen ++ [r]) := by
      rw [weightConflict_append_singleton]
      rintro (hc | ⟨r1, hr1, hsp, hne⟩)
      · exact hnc hc
      · exact hnomatch r1 hr1 ((samePair_iff_recMatches directed r1 r).mp hsp)
    left
    cases hdir : directed with
    | true =>
      have hstep : piStepCore true stA i1 i2 (effWeight weighted r) = .ok
          ⟨stA.num_nodes, stA.ENSG2idx,
            stA.interactome ++ [(i1, i2, effWeight weighted r)],
            ((i1, i2), effWeight weighted r) :: stA.edge2weight⟩ := by
        simp only [piStepCore, hcs, if_true]
      rw [hdir] at hsymmA he2wA hnc2
      exact ⟨⟨_, hstep, insert_inv_directed hnamesA hboundA hinjA he2wA
        hedgesA hdedupA hsymmA hlook1 hlook2 hcs rfl⟩, hnc2⟩
    | false =>
      rw [hdir] at hsymmA he2wA hnc2
      by_cases h12 : i2 = i1
      · have hl : (((i1, i2), effWeight weighted r) ::
            stA.edge2weight).lookup (i2, i1) =
              some (effWeight weighted r) := by
          rw [e2w_cons_lookup, if_pos (Prod.ext_iff.mpr ⟨h12, h12.symm⟩)]
        have hstep : piStepCore false stA i1 i2 (effWeight weighted r) = .ok
            ⟨stA.num_nodes, stA.ENSG2idx,
              stA.interactome ++ [(i1, i2, effWeight weighted r)],
              ((i1, i2), effWeight weighted r) :: stA.edge2weight⟩ := by
          simp only [piStepCore, hcs, Bool.false_eq_true, if_false, hl,
            if_true]
        exact ⟨⟨_, hstep, insert_inv_undirected_self hnamesA hboundA hinjA
          he2wA hedgesA hdedupA hsymmA hlook1 hlook2 hcs rfl h12⟩, hnc2⟩
      · have hrevnone : stA.edge2weight.lookup (i2, i1) = none := by
          cases hl : stA.edge2weight.lookup (i2, i1) with
          | none => rfl
          | some w2 =>
            exfalso
            have hsw := hsymmA rfl i2 i1 w2 hl
            rw [hcs] at hsw
            cases hsw
        have hl : (((i1, i2), effWeight weighted r) ::
            stA.edge2weight).lookup (i2, i1) = none := by
          rw [e2w_cons_lookup,
            if_neg (fun hq => h12 (congrArg Prod.fst hq)), hrevnone]
        have hstep : piStepCore false stA i1 i2 (effWeight weighted r) = .ok
            ⟨stA.num_nodes, stA.ENSG2idx,
              (stA.interactome ++ [(i1, i2, effWeight weighted r)]) ++
                [(i2, i1, effWeight weighted r)],
              ((i2, i1), effWeight weighted r) ::
                ((i1, i2), effWeight weighted r) :: stA.edge2weight⟩ := by
          simp only [piStepCore, hcs, Bool.false_eq_true, if_false, hl]
        exact ⟨⟨_, hstep, insert_inv_undirected_two hnamesA hboundA hinjA
          he2wA hedgesA hdedupA hsymmA hlook1 hlook2 hcs rfl h12
          hrevnone⟩, hnc2⟩

end ParserInvariant

/-- One full loop iteration preserves the invariant on conflict-free
prefixes, or fails exactly when the new record conflicts with an earlier
one. -/
lemma piStep_spec (weighted directed : Bool)
    (seen : List (String × ℚ × String)) (st : PIState)
    (r : String × ℚ × String)
    (hinv : PIInv weighted directed seen st)
    (hnc : ¬ weightConflict weighted directed seen) :
    ((∃ st2, piStep weighted directed st r = .ok st2 ∧
        PIInv weighted directed (seen ++ [r]) st2) ∧
      ¬ weightConflict weighted directed (seen ++ [r])) ∨
    (((piStep weighted directed st r).isOk = false) ∧
      weightConflict weighted directed (seen ++ [r])) := by
  have hsome1 :
      ((addNode (addNode st r.1) r.2.2).ENSG2idx.lookup r.1).isSome := by
    rw [addNode_isSome, addNode_isSome]
    exact Or.inl (Or.inr rfl)
  have hsome2 :
      ((addNode (addNode st r.1) r.2.2).ENSG2idx.lookup r.2.2).isSome := by
    rw [addNode_isSome]
    exact Or.inr rfl
  have hlook1 := lookup_idxOf _ _ hsome1
  have hlook2 := lookup_idxOf _ _ hsome2
  have hnamesA : ∀ nm,
      (((addNode (addNode st r.1) r.2.2).ENSG2idx.lookup nm).isSome) ↔
        nameSeen (seen ++ [r]) nm := by
    intro nm
    rw [addNode_isSome, addNode_isSome, nameSeen_append_singleton,
      ← hinv.names nm]
    tauto
  have hboundA := addNode_bound (addNode st r.1) r.2.2
    (addNode_bound st r.1 hinv.bound)
  have hinjA := addNode_inj (addNode st r.1) r.2.2
    (addNode_bound st r.1 hinv.bound)
    (addNode_inj st r.1 hinv.bound hinv.inj)
  have hstableA : ∀ nm, nameSeen seen nm →
      (addNode (addNode st r.1) r.2.2).ENSG2idx.lookup nm =
        st.ENSG2idx.lookup nm := by
    intro nm hn
    have h1 : (st.ENSG2idx.lookup nm).isSome := (hinv.names nm).mpr hn
    rw [addNode_lookup_stable _ _ _
        (by rw [addNode_isSome]; exact Or.inl h1),
      addNode_lookup_stable _ _ _ h1]
  have hrecNames : ∀ q n1 n2, q ∈ seen → recMatches directed q n1 n2 →
      nameSeen seen n1 ∧ nameSeen seen n2 := by
    intro q n1 n2 hq hm
    rcases hm with ⟨h1, h2⟩ | ⟨-, h1, h2⟩
    · exact ⟨⟨q, hq, Or.inl h1⟩, ⟨q, hq, Or.inr h2⟩⟩
    · exact ⟨⟨q, hq, Or.inr h2⟩, ⟨q, hq, Or.inl h1⟩⟩
  have hA_e2w :
      (addNode (addNode st r.1) r.2.2).edge2weight = st.edge2weight := by
    rw [addNode_edge2weight, addNode_edge2weight]
  have hA_int :
      (addNode (addNode st r.1) r.2.2).interactome = st.interactome := by
    rw [addNode_interactome, addNode_interactome]
  have he2wA : ∀ a b w,
      (addNode (addNode st r.1) r.2.2).edge2weight.lookup (a, b) = some w ↔
        ∃ n1 n2,
          (addNode (addNode st r.1) r.2.2).ENSG2idx.lookup n1 = some a ∧
          (addNode (addNode st r.1) r.2.2).ENSG2idx.lookup n2 = some b ∧
          ∃ q ∈ seen, recMatches directed q n1 n2 ∧
            effWeight weighted q = w := by
    intro a b w
    rw [hA_e2w, hinv.e2w]
    constructor
    · rintro ⟨n1, n2, h1, h2, q, hq, hm, hwq⟩
      obtain ⟨hn1, hn2⟩ := hrecNames q n1 n2 hq hm
      exact ⟨n1, n2, by rw [hstableA n1 hn1]; exact h1,
        by rw [hstableA n2 hn2]; exact h2, q, hq, hm, hwq⟩
    · rintro ⟨n1, n2, h1, h2, q, hq, hm, hwq⟩
      obtain ⟨hn1, hn2⟩ := hrecNames q n1 n2 hq hm
      exact ⟨n1, n2, by rw [← hstableA n1 hn1]; exact h1,
        by rw [← hstableA n2 hn2]; exact h2, q, hq, hm, hwq⟩
  have hedgesA : ∀ a b w,
      (a, b, w) ∈ (addNode (addNode st r.1) r.2.2).interactome ↔
        (addNode (addNode st r.1) r.2.2).edge2weight.lookup (a, b) =
          some w := by
    intro a b w
    rw [hA_int, hA_e2w]
    exact hinv.edges a b w
  have hdedupA : ((addNode (addNode st r.1) r.2.2).interactome.map
      (fun e => (e.1, e.2.1))).Nodup := by
    rw [hA_int]
    exact hinv.dedup
  have hsymmA : directed = false → ∀ a b w,
      (addNode (addNode st r.1) r.2.2).edge2weight.lookup (a, b) = some w →
      (addNode (addNode st r.1) r.2.2).edge2weight.lookup (b, a) =
        some w := by
    intro hdf a b w h
    rw [hA_e2w] at h ⊢
    exact hinv.symm hdf a b w h
  exact piStepCore_spec hnamesA hboundA hinjA he2wA hedgesA hdedupA hsymmA
    hlook1 hlook2 hnc

/-- The whole parse loop: starting from a conflict-free prefix with its
invariant, the fold either succeeds with the invariant on the full stream,
or fails exactly when the stream contains a weight conflict. -/
lemma parse_loop_spec (weighted directed : Bool) :
    ∀ (records seen : List (String × ℚ × String)) (st : PIState),
      PIInv weighted directed seen st →
      ¬ weightConflict weighted directed seen →
      ((∃ st2, records.foldlM (piStep weighted directed) st = .ok st2 ∧
          PIInv weighted directed (seen ++ records) st2) ∧
        ¬ weightConflict weighted directed (seen ++ records)) ∨
      (((records.foldlM (piStep weighted directed) st).isOk = false) ∧
        weightConflict weighted directed (seen ++ records)) := by
  intro records
  induction records with
  | nil =>
    intro seen st hinv hnc
    left
    exact ⟨⟨st, rfl, by simpa using hinv⟩, by simpa using hnc⟩
  | cons r rest ih =>
    intro seen st hinv hnc
    have hassoc : seen ++ [r] ++ rest = seen ++ r :: rest := by
      rw [List.append_assoc, List.singleton_append]
    rcases piStep_spec weighted directed seen st r hinv hnc with
      ⟨⟨st2, hok, hinv2⟩, hnc2⟩ | ⟨herr, hconf⟩
    · rcases ih (seen ++ [r]) st2 hinv2 hnc2 with
        ⟨⟨st3, hok3, hinv3⟩, hnc3⟩ | ⟨herr3, hconf3⟩
      · left
        rw [hassoc] at hinv3 hnc3
        refine ⟨⟨st3, ?_, hinv3⟩, hnc3⟩
        rw [List.foldlM_cons, hok]
        exact hok3
      · right
        rw [hassoc] at hconf3
        refine ⟨?_, hconf3⟩
        rw [List.foldlM_cons, hok]
        exact herr3
    · right
      constructor
      · rw [List.foldlM_cons]
        cases hps : piStep weighted directed st r with
        | ok st2 =>
          rw [hps] at herr
          have hok2 : (Except.ok st2 : Except String PIState).isOk = true :=
            rfl
          rw [hok2] at herr
          exact Bool.noConfusion herr
        | error e =>
          rfl
      · refine weightConflict_mono weighted directed ?_ hconf
        refine List.Sublist.append_left ?_ seen
        exact List.singleton_sublist.mpr (List.mem_cons_self r rest)

lemma weightConflict_nil (weighted directed : Bool) :
    ¬ weightConflict weighted directed [] := by
  rintro ⟨r1, r2, hsub, -, -⟩
  have := hsub.length_le
  simp at this

/-- C8: `parse_interactome` fails exactly when the record stream contains
the same edge — the same ordered pair, or, for an undirected network, the
same unordered pair — with two different effective weights.  On success the
edge list holds no duplicate ordered pair (identical repeats are silently
deduplicated) and, for an undirected network, contains the reverse of every
edge with the same weight (synthesized when absent). -/
theorem claim_C8 (records : List (String × ℚ × String))
    (weighted directed : Bool) :
    ((parse_interactome records weighted directed).isOk = false ↔
      weightConflict weighted directed records) ∧
    (∀ st, parse_interactome records weighted directed = .ok st →
      ((st.interactome.map (fun e => (e.1, e.2.1))).Nodup ∧
        (directed = false → ∀ e ∈ st.interactome,
          (e.2.1, e.1, e.2.2) ∈ st.interactome))) := by
  have h := parse_loop_spec weighted directed records [] piInit
    (piInv_init weighted directed) (weightConflict_nil weighted directed)
  rw [List.nil_append] at h
  rcases h with ⟨⟨st2, hok, hinv2⟩, hnc2⟩ | ⟨herr, hconf⟩
  · constructor
    · rw [parse_interactome, hok]
      constructor
      · intro hfalse
        exact absurd hfalse (by rw [show (Except.ok st2 :
          Except String PIState).isOk = true from rfl]; simp)
      · intro hc
        exact absurd hc hnc2
    · intro st hst
      rw [parse_interactome, hok] at hst
      have hst2 : st2 = st := Except.ok.inj hst
      subst hst2
      refine ⟨hinv2.dedup, ?_⟩
      intro hdf e he
      have he2 : (e.1, e.2.1, e.2.2) ∈ st2.interactome := by
        have : e = (e.1, e.2.1, e.2.2) :=
          Prod.ext_iff.mpr ⟨rfl, Prod.ext_iff.mpr ⟨rfl, rfl⟩⟩
        rw [← this]
        exact he
      have hl := (hinv2.edges e.1 e.2.1 e.2.2).mp he2
      have hl2 := hinv2.symm hdf e.1 e.2.1 e.2.2 hl
      exact (hinv2.edges e.2.1 e.1 e.2.2).mpr hl2
  · constructor
    · rw [parse_interactome]
      constructor
      · intro _
        exact hconf
      · intro _
        exact herr
    · intro st hst
      rw [parse_interactome] at hst
      rw [hst] at herr
      exact absurd herr (by rw [show (Except.ok st :
        Except String PIState).isOk = true from rfl]; simp)

theorem claim_C8_witness :
    (parse_interactome [("A", (1 : ℚ), "B"), ("B", (2 : ℚ), "A")]
      true false).isOk = false :=
  (claim_C8 [("A", (1 : ℚ), "B"), ("B", (2 : ℚ), "A")] true false).1.mpr
    ⟨("A", (1 : ℚ), "B"), ("B", (2 : ℚ), "A"), List.Sublist.refl _,
      Or.inr ⟨rfl, rfl⟩, by norm_num [effWeight]⟩

/-! ## Network Model: parse_interactome (src/data_parser.py, networkx
variant) -/

/-- Models `networkx.Graph.add_edge` restricted to the edge set: the undirected
edge is recorded unless either orientation is already present. -/
def nxAddEdge (edges : List (String × String)) (u v : String) :
    List (String × String) :=
  if (u, v) ∈ edges ∨ (v, u) ∈ edges then edges else edges ++ [(u, v)]

/-- Models `parse_interactome(interactome_file)` of src/data_parser.py (the
networkx variant), over the already-split records: records whose two
endpoints are equal are skipped ("exclude self-interactions"), all other
records are added to the graph's edge set. -/
def parse_interactome_nx (records : List (String × String × String)) :
    List (String × String) :=
  records.foldl
    (fun edges q => if q.1 == q.2.2 then edges else nxAddEdge edges q.1 q.2.2)
    []

lemma parse_nx_aux (records : List (String × String × String)) :
    ∀ acc : List (String × String), (∀ e ∈ acc, e.1 ≠ e.2) →
      ∀ e ∈ records.foldl
        (fun edges q =>
          if q.1 == q.2.2 then edges else nxAddEdge edges q.1 q.2.2) acc,
        e.1 ≠ e.2 := by
  induction records with
  | nil =>
    intro acc hacc e he
    exact hacc e he
  | cons q t ih =>
    intro acc hacc
    rw [List.foldl_cons]
    by_cases hq : (q.1 == q.2.2) = true
    · rw [if_pos hq]
      exact ih acc hacc
    · rw [if_neg hq]
      refine ih _ ?_
      intro e he
      unfold nxAddEdge at he
      split at he
      · exact hacc e he
      · rcases List.mem_append.mp he with he2 | he2
        · exact hacc e he2
        · rw [List.mem_singleton] at he2
          subst he2
          intro hcontra
          exact hq (by simpa using hcontra)

/-- C5 counterexample: the edge-list `parse_interactome` (data_parser.py)
does not filter self-loop records — the single record `A pp A` yields the
edge `(0, 0, 1)` with equal source and destination indices. -/
theorem claim_C5_counterexample :
    ¬ (∀ e ∈ parsedEdges [("A", (1 : ℚ), "A")] false false, e.1 ≠ e.2.1) := by
  intro h
  have hmem : ((0 : ℕ), (0 : ℕ), (1 : ℚ)) ∈
      parsedEdges [("A", (1 : ℚ), "A")] false false := by
    with_unfolding_all decide
  exact h _ hmem rfl

/-- C5 (amended): self-loop records are excluded by the networkx-based
`parse_interactome` (src/data_parser.py) — no edge of its graph has equal
endpoints — whereas the edge-list `parse_interactome` (data_parser.py) does
not filter them: a self-loop record yields a single edge with equal source
and destination (and no duplicate reverse copy). -/
theorem claim_C5_amended :
    (∀ (records : List (String × String × String)),
      ∀ e ∈ parse_interactome_nx records, e.1 ≠ e.2) ∧
    parsedEdges [("A", (1 : ℚ), "A")] false false = [(0, 0, 1)] := by
  constructor
  · intro records e he
    exact parse_nx_aux records [] (by intro e2 he2; cases he2) e he
  · with_unfolding_all decide

theorem claim_C5_witness :
    ("A", "B") ∈ parse_interactome_nx [("A", "pp", "B")] ∧ "A" ≠ "B" :=
  ⟨by decide, claim_C5_amended.1 [("A", "pp", "B")] ("A", "B") (by decide)⟩

/-! ## parse_causal_genes (data_parser.py, indexed-vector variant) -/

/-- The check `re.match(r'^[a-zA-Z0-9\-_]+$', line)` of `parse_causal_genes`
on a logical line (the single trailing newline that Python's `$` tolerates
is the line terminator, not part of the logical line): one or more
characters, each an ASCII letter, digit, hyphen or underscore. -/
def isGeneName (line : String) : Bool :=
  !line.isEmpty &&
    line.toList.all (fun c => c.isAlphanum || c == '-' || c == '_')

/-- A well-formed line resolves to an interactome index: its gene name is
known to `gene2ENSG` and the resulting ENSG is a key of `ENSG2idx`. -/
def resolves (gene2ENSG : List (String × String))
    (ENSG2idx : List (String × ℕ)) (line : String) : Bool :=
  match gene2ENSG.lookup line with
  | some ensg => (ENSG2idx.lookup ensg).isSome
  | none => false

/-- Body of the `for line in f_causal` loop of `parse_causal_genes`
(data_parser.py): non-matching lines are a fatal error; a gene name missing
from `gene2ENSG`, or an ENSG missing from `ENSG2idx`, is only logged and
skipped; otherwise the vector entry at the gene's index is set to 1. -/
def pcgStep (gene2ENSG : List (String × String))
    (ENSG2idx : List (String × ℕ)) (causal_genes : List ℚ) (line : String) :
    Except String (List ℚ) :=
  if isGeneName line then
    match gene2ENSG.lookup line with
    | some ensg =>
      match ENSG2idx.lookup ensg with
      | some i => .ok (causal_genes.set i 1)
      | none => .ok causal_genes
    | none => .ok causal_genes
  else .error "Bad line in the causal genes file"

/-- Models `parse_causal_genes(causal_genes_file, gene2ENSG, ENSG2idx)` of
data_parser.py over the logical lines of the file, starting from
`[0.0] * len(ENSG2idx)`. -/
def parse_causal_genes (lines : List String)
    (gene2ENSG : List (String × String)) (ENSG2idx : List (String × ℕ)) :
    Except String (List ℚ) :=
  lines.foldlM (pcgStep gene2ENSG ENSG2idx)
    (List.replicate ENSG2idx.length 0)

lemma pcgStep_ok (gene2ENSG : List (String × String))
    (ENSG2idx : List (String × ℕ)) (acc : List ℚ) (line : String)
    (hg : isGeneName line = true) :
    ∃ acc2, pcgStep gene2ENSG ENSG2idx acc line = .ok acc2 ∧
      (resolves gene2ENSG ENSG2idx line = false → acc2 = acc) := by
  unfold pcgStep
  rw [if_pos hg]
  split
  · rename_i ensg hl
    split
    · rename_i i hi
      refine ⟨acc.set i 1, rfl, ?_⟩
      intro hres
      exfalso
      simp [resolves, hl, hi] at hres
    · exact ⟨acc, rfl, fun _ => rfl⟩
  · exact ⟨acc, rfl, fun _ => rfl⟩

lemma pcgStep_err (gene2ENSG : List (String × String))
    (ENSG2idx : List (String × ℕ)) (acc : List ℚ) (line : String)
    (hg : isGeneName line = false) :
    pcgStep gene2ENSG ENSG2idx acc line =
      .error "Bad line in the causal genes file" := by
  unfold pcgStep
  rw [if_neg (by simp [hg])]

lemma pcg_fold_spec (gene2ENSG : List (String × String))
    (ENSG2idx : List (String × ℕ)) :
    ∀ (lines : List String) (acc : List ℚ),
      (((lines.foldlM (pcgStep gene2ENSG ENSG2idx) acc).isOk = false) ↔
        ∃ l ∈ lines, isGeneName l = false) ∧
      ((∀ l ∈ lines, isGeneName l = true) →
        lines.foldlM (pcgStep gene2ENSG ENSG2idx) acc =
          (lines.filter (resolves gene2ENSG ENSG2idx)).foldlM
            (pcgStep gene2ENSG ENSG2idx) acc) := by
  intro lines
  induction lines with
  | nil =>
    intro acc
    constructor
    · constructor
      · intro h
        cases h
      · rintro ⟨l, hl, -⟩
        cases hl
    · intro _
      rfl
  | cons l t ih =>
    intro acc
    by_cases hg : isGeneName l = true
    · obtain ⟨acc2, hstep, hkeep⟩ := pcgStep_ok gene2ENSG ENSG2idx acc l hg
      have hred : (l :: t).foldlM (pcgStep gene2ENSG ENSG2idx) acc =
          t.foldlM (pcgStep gene2ENSG ENSG2idx) acc2 := by
        rw [List.foldlM_cons, hstep]
        rfl
      constructor
      · rw [hred, (ih acc2).1]
        constructor
        · rintro ⟨l2, hl2, hgl2⟩
          exact ⟨l2, List.mem_cons_of_mem l hl2, hgl2⟩
        · rintro ⟨l2, hl2, hgl2⟩
          rcases List.mem_cons.mp hl2 with rfl | hl3
          · rw [hg] at hgl2
            cases hgl2
          · exact ⟨l2, hl3, hgl2⟩
      · intro hall
        have hallt : ∀ l2 ∈ t, isGeneName l2 = true :=
          fun l2 hl2 => hall l2 (List.mem_cons_of_mem l hl2)
        rw [hred, (ih acc2).2 hallt]
        cases hres : resolves gene2ENSG ENSG2idx l with
        | false =>
          rw [List.filter_cons, if_neg (by simp [hres]), hkeep hres]
        | true =>
          rw [List.filter_cons, if_pos (by simp [hres]), List.foldlM_cons,
            hstep]
          rfl
    · have hgf : isGeneName l = false := by
        cases hgn : isGeneName l
        · rfl
        · exact absurd hgn hg
      have hred : (l :: t).foldlM (pcgStep gene2ENSG ENSG2idx) acc =
          .error "Bad line in the causal genes file" := by
        rw [List.foldlM_cons, pcgStep_err gene2ENSG ENSG2idx acc l hgf]
        rfl
      constructor
      · rw [hred]
        constructor
        · intro _
          exact ⟨l, List.mem_cons_self l t, hgf⟩
        · intro _
          rfl
      · intro hall
        exfalso
        rw [hall l (List.mem_cons_self l t)] at hgf
        cases hgf

/-- C10: `parse_causal_genes` (the indexed-vector variant) raises its fatal
error exactly when some input line fails the gene-name pattern
`^[a-zA-Z0-9-_]+$`; when every line is well-formed, lines whose gene is
unknown or whose ENSG is absent from the interactome index are only skipped
— removing them from the input does not change the result. -/
theorem claim_C10 (lines : List String)
    (gene2ENSG : List (String × String)) (ENSG2idx : List (String × ℕ)) :
    (((parse_causal_genes lines gene2ENSG ENSG2idx).isOk = false) ↔
      ∃ l ∈ lines, isGeneName l = false) ∧
    ((∀ l ∈ lines, isGeneName l = true) →
      parse_causal_genes lines gene2ENSG ENSG2idx =
        parse_causal_genes (lines.filter (resolves gene2ENSG ENSG2idx))
          gene2ENSG ENSG2idx) :=
  pcg_fold_spec gene2ENSG ENSG2idx lines
    (List.replicate ENSG2idx.length 0)

theorem claim_C10_witness :
    (∀ l ∈ ["GENE1", "GENE-2"], isGeneName l = true) ∧
      parse_causal_genes ["GENE1", "GENE-2"] [("GENE1", "ENSG1")]
          [("ENSG1", 0)] =
        parse_causal_genes (["GENE1", "GENE-2"].filter
            (resolves [("GENE1", "ENSG1")] [("ENSG1", 0)]))
          [("GENE1", "ENSG1")] [("ENSG1", 0)] :=
  ⟨by decide,
    (claim_C10 ["GENE1", "GENE-2"] [("GENE1", "ENSG1")] [("ENSG1", 0)]).2
      (by decide)⟩

end GBA
